import Mathlib

/-!
# Verification of the openfundus memory engine

A shallow embedding, in Lean 4, of the persistent memory store of the
repository (query normalizer, deduplicator, store CRUD, tag/link graph,
maintenance, file-freshness check, export/import), together with theorems
settling the frozen claims about it.

Modelling conventions:
* JavaScript strings are Lean `String`s (lists of characters); the ASCII
  fragment of `toLowerCase`, `trim`, `\s`, `\w` is modelled explicitly.
* SQLite tables are Lean lists kept in insertion (rowid) order.  `ORDER BY`
  is a stable merge sort, `LIMIT` is `List.take`.  The FTS5 virtual table is
  a separate list of rows kept in sync by the same effects the migration's
  triggers perform.  Foreign-key cascades (`ON DELETE CASCADE`) and the
  CHECK constraint on `memory_links.relationship` are part of the schema and
  are reflected in the corresponding operations.
* Unix timestamps are `Int`, file mtimes are `ℚ`, BM25 ranks are `ℝ`.
* The BM25 candidate list returned by an FTS5 `MATCH` query is abstracted as
  an oracle parameter constrained to return rows of the queried scope; every
  theorem about the dedup search path quantifies over all such oracles.
* Fallible operations return their error through `Except`, paired with the
  database state left behind (SQLite statements are atomic, so an error
  leaves the state of the failing statement unchanged).
-/

namespace Openfundus

/-! ## Character and string primitives (ASCII model of the JS operations) -/

/-- ASCII whitespace recognised by the JS `\s` class (space, tab, LF, VT, FF, CR). -/
def isWsChar (c : Char) : Bool :=
  c == ' ' || c == '\t' || c == '\n' || c == '\r' || c == Char.ofNat 11 || c == Char.ofNat 12

/-- The 26 uppercase/lowercase ASCII pairs of `String.prototype.toLowerCase`. -/
def lowerPairs : List (Char × Char) :=
  [('A', 'a'), ('B', 'b'), ('C', 'c'), ('D', 'd'), ('E', 'e'), ('F', 'f'),
   ('G', 'g'), ('H', 'h'), ('I', 'i'), ('J', 'j'), ('K', 'k'), ('L', 'l'),
   ('M', 'm'), ('N', 'n'), ('O', 'o'), ('P', 'p'), ('Q', 'q'), ('R', 'r'),
   ('S', 's'), ('T', 't'), ('U', 'u'), ('V', 'v'), ('W', 'w'), ('X', 'x'),
   ('Y', 'y'), ('Z', 'z')]

/-- ASCII lowercasing of one character (the fragment of `toLowerCase` the
reserved words and stop words can meet). -/
def lowerChar (c : Char) : Char :=
  (((lowerPairs.find? (fun p => p.1 == c)).map (fun p => p.2)).getD c)

/-- `s.toLowerCase()` on the ASCII fragment. -/
def lowerStr (s : String) : String := ⟨s.data.map lowerChar⟩

/-- `s.trim()` (ASCII whitespace). -/
def trimChars (l : List Char) : List Char :=
  ((l.dropWhile isWsChar).reverse.dropWhile isWsChar).reverse

/-- `.replace(/\s+/g, " ")`: collapse every whitespace run to a single
space (a whitespace character is dropped while its run continues and emits
one space when the run ends, which replaces each maximal run by `' '`). -/
def collapseWs : List Char → List Char
  | [] => []
  | [c] => if isWsChar c then [' '] else [c]
  | c :: d :: rest =>
    if isWsChar c then
      if isWsChar d then collapseWs (d :: rest)
      else ' ' :: collapseWs (d :: rest)
    else c :: collapseWs (d :: rest)

/-- `.split(/\s+/)` restricted to its nonempty pieces (the code filters all
pieces through a `length > 1` or `length > 0` test, so the empty piece JS
yields on leading whitespace never survives). -/
def tokenizeAux : List Char → List Char → List (List Char)
  | [], acc => if acc.isEmpty then [] else [acc.reverse]
  | c :: rest, acc =>
    if isWsChar c then
      if acc.isEmpty then tokenizeAux rest []
      else acc.reverse :: tokenizeAux rest []
    else tokenizeAux rest (c :: acc)

def tokenize (l : List Char) : List (List Char) := tokenizeAux l []

/-- Join tokens with a single space (`Array.prototype.join(" ")`). -/
def joinSpace : List (List Char) → List Char
  | [] => []
  | [t] => t
  | t :: ts => t ++ ' ' :: joinSpace ts

/-- `.split(" ")` (single-space separator, keeping empty pieces), as used by
the Jaccard similarity. -/
def splitSpaceAux : List Char → List Char → List (List Char)
  | [], acc => [acc.reverse]
  | c :: rest, acc =>
    if c == ' ' then acc.reverse :: splitSpaceAux rest []
    else splitSpaceAux rest (c :: acc)

def splitSpace (l : List Char) : List (List Char) := splitSpaceAux l []

/-! ## Query normalizer (`sanitizeQuery`, src/unnamed/part_007) -/

/-- The FTS5 special character class of the source regex
`/["*(){}[\]:^~!&|@#$%+=\\<>,;?/\-`.'']/g` (30 distinct characters; the
apostrophe appears twice in the regex). -/
def SPECIAL : List Char :=
  [Char.ofNat 34, '*', '(', ')', Char.ofNat 123, Char.ofNat 125, '[', ']',
   ':', '^', '~', '!', '&', '|', '@', '#', '$', '%', '+', '=',
   Char.ofNat 92, '<', '>', ',', ';', '?', '/', '-', Char.ofNat 96, '.',
   Char.ofNat 39]

/-- The stop-word list `STOP_WORDS` of the source. -/
def STOP_WORDS : List String :=
  ["a", "an", "the", "is", "are", "was", "were", "be", "been", "being",
   "have", "has", "had", "do", "does", "did", "will", "would", "could",
   "should", "may", "might", "shall", "can", "to", "of", "in", "for",
   "on", "with", "at", "by", "from", "as", "into", "about", "it",
   "its", "this", "that", "these", "those", "i", "we", "you", "he",
   "she", "they", "me", "him", "her", "us", "them", "my", "your",
   "his", "our", "their", "what", "which", "who", "whom", "how",
   "when", "where", "why", "not", "no", "nor", "so", "if", "or",
   "and", "but", "than", "too", "very", "just"]

/-- The reserved FTS5 operator words `FTS5_OPERATORS`. -/
def OPERATOR_WORDS : List String := ["and", "or", "not", "near"]

/-- `raw.replace(FTS5_SPECIAL, " ")`. -/
def stripSpecial (l : List Char) : List Char :=
  l.map (fun c => if c ∈ SPECIAL then ' ' else c)

/-- JS `\w`: `[A-Za-z0-9_]`. -/
def isWordChar (c : Char) : Bool :=
  (48 ≤ c.toNat && c.toNat ≤ 57) || (65 ≤ c.toNat && c.toNat ≤ 90) ||
    (97 ≤ c.toNat && c.toNat ≤ 122) || c == '_'

/-- The main token path of `sanitizeQuery`: strip specials, lowercase, split
on whitespace, keep tokens longer than 1 that are neither stop words nor
reserved operator words. -/
def sanTokens (raw : String) : List (List Char) :=
  (tokenize ((stripSpecial raw.data).map lowerChar)).filter
    (fun t => decide (1 < t.length) &&
      !(STOP_WORDS.contains (String.mk t)) && !(OPERATOR_WORDS.contains (String.mk t)))

/-- The fallback path: re-split the special-stripped original (case kept),
keep tokens longer than 1 whose lowercasing is not a reserved operator. -/
def sanFallback (raw : String) : List (List Char) :=
  (tokenize (stripSpecial raw.data)).filter
    (fun t => decide (1 < t.length) &&
      !(OPERATOR_WORDS.contains (String.mk (t.map lowerChar))))

/-- The last resort: `raw.replace(/[^\w\s]/g, " ").trim()`. -/
def lastResort (raw : String) : List Char :=
  trimChars (raw.data.map (fun c => if isWordChar c || isWsChar c then c else ' '))

/-- `sanitizeQuery` (src/unnamed/part_007, lines 63–86). -/
def sanitizeQuery (raw : String) : String :=
  let tokens := sanTokens raw
  if tokens.isEmpty then
    let fb := trimChars (joinSpace (sanFallback raw))
    if fb.isEmpty then ⟨lastResort raw⟩ else ⟨fb⟩
  else ⟨joinSpace tokens⟩

/-! ## Lemmas about the character primitives -/

theorem mem_dropWhile {p : Char → Bool} {l : List Char} {c : Char}
    (h : c ∈ l.dropWhile p) : c ∈ l := by
  induction l with
  | nil => simp [List.dropWhile] at h
  | cons d rest ih =>
    simp only [List.dropWhile] at h
    by_cases hd : p d
    · simp [hd] at h
      exact List.mem_cons_of_mem _ (ih h)
    · simp [hd] at h
      simp
      exact h

theorem mem_trimChars {l : List Char} {c : Char} (h : c ∈ trimChars l) : c ∈ l := by
  unfold trimChars at h
  rw [List.mem_reverse] at h
  have h2 := mem_dropWhile h
  rw [List.mem_reverse] at h2
  exact mem_dropWhile h2

theorem lowerPairs_facts :
    ∀ p ∈ lowerPairs, (lowerPairs.find? (fun q => q.1 == p.2)) = none ∧
      p.2 ∉ SPECIAL ∧ isWsChar p.2 = false := by decide

theorem lowerChar_cases (c : Char) :
    lowerChar c = c ∨ ∃ p ∈ lowerPairs, p.1 = c ∧ lowerChar c = p.2 := by
  unfold lowerChar
  cases hf : lowerPairs.find? (fun p => p.1 == c) with
  | none => simp
  | some p =>
    right
    refine ⟨p, List.mem_of_find?_eq_some hf, ?_, by simp⟩
    have := List.find?_some hf
    simp at this
    exact this

theorem lowerChar_idem (c : Char) : lowerChar (lowerChar c) = lowerChar c := by
  rcases lowerChar_cases c with h | ⟨p, hp, _, h⟩
  · rw [h, h]
  · rw [h]
    unfold lowerChar
    rw [(lowerPairs_facts p hp).1]
    simp

theorem lowerChar_not_special {c : Char} (h : c ∉ SPECIAL) : lowerChar c ∉ SPECIAL := by
  rcases lowerChar_cases c with he | ⟨p, hp, _, he⟩
  · rwa [he]
  · rw [he]
    exact (lowerPairs_facts p hp).2.1

theorem stripSpecial_not_special {l : List Char} {c : Char} (h : c ∈ stripSpecial l) :
    c ∉ SPECIAL := by
  unfold stripSpecial at h
  rw [List.mem_map] at h
  obtain ⟨d, _, hd⟩ := h
  by_cases hs : d ∈ SPECIAL
  · rw [if_pos hs] at hd
    rw [← hd]
    decide
  · rw [if_neg hs] at hd
    exact hd ▸ hs

theorem special_not_word_ws : ∀ c ∈ SPECIAL, isWordChar c = false ∧ isWsChar c = false := by
  decide

/-! ## Lemmas about the tokenizer -/

theorem tokenizeAux_props (l : List Char) (acc : List Char)
    (hacc : ∀ c ∈ acc, isWsChar c = false) :
    ∀ t ∈ tokenizeAux l acc,
      t ≠ [] ∧ (∀ c ∈ t, isWsChar c = false) ∧ (∀ c ∈ t, c ∈ l ∨ c ∈ acc) := by
  induction l generalizing acc with
  | nil =>
    intro t ht
    simp only [tokenizeAux] at ht
    by_cases he : acc.isEmpty
    · simp [he] at ht
    · simp [he] at ht
      subst ht
      refine ⟨by simpa [List.isEmpty_iff] using he, ?_, ?_⟩
      · intro c hc; exact hacc c (List.mem_reverse.mp hc)
      · intro c hc; exact Or.inr (List.mem_reverse.mp hc)
  | cons d rest ih =>
    intro t ht
    simp only [tokenizeAux] at ht
    by_cases hd : isWsChar d
    · simp only [hd, if_true] at ht
      by_cases he : acc.isEmpty
      · simp only [he, if_true] at ht
        obtain ⟨h1, h2, h3⟩ := ih [] (by simp) t ht
        exact ⟨h1, h2, fun c hc => by
          rcases h3 c hc with h | h
          · exact Or.inl (List.mem_cons_of_mem _ h)
          · simp at h⟩
      · simp only [he, if_false] at ht
        rcases List.mem_cons.mp ht with h | h
        · subst h
          refine ⟨by simpa [List.isEmpty_iff] using he, ?_, ?_⟩
          · intro c hc; exact hacc c (List.mem_reverse.mp hc)
          · intro c hc; exact Or.inr (List.mem_reverse.mp hc)
        · obtain ⟨h1, h2, h3⟩ := ih [] (by simp) t h
          exact ⟨h1, h2, fun c hc => by
            rcases h3 c hc with h | h
            · exact Or.inl (List.mem_cons_of_mem _ h)
            · simp at h⟩
    · simp only [hd, if_false] at ht
      have hacc' : ∀ c ∈ d :: acc, isWsChar c = false := by
        intro c hc
        rcases List.mem_cons.mp hc with h | h
        · subst h; simpa using hd
        · exact hacc c h
      obtain ⟨h1, h2, h3⟩ := ih (d :: acc) hacc' t ht
      refine ⟨h1, h2, fun c hc => ?_⟩
      rcases h3 c hc with h | h
      · exact Or.inl (List.mem_cons_of_mem _ h)
      · rcases List.mem_cons.mp h with h | h
        · exact Or.inl (h ▸ List.mem_cons_self _ _)
        · exact Or.inr h

theorem tokenize_props (l : List Char) :
    ∀ t ∈ tokenize l, t ≠ [] ∧ (∀ c ∈ t, isWsChar c = false) ∧ (∀ c ∈ t, c ∈ l) := by
  intro t ht
  obtain ⟨h1, h2, h3⟩ := tokenizeAux_props l [] (by simp) t ht
  exact ⟨h1, h2, fun c hc => by rcases h3 c hc with h | h; exact h; simp at h⟩

theorem tokenizeAux_append (t l acc : List Char) (ht : ∀ c ∈ t, isWsChar c = false) :
    tokenizeAux (t ++ l) acc = tokenizeAux l (t.reverse ++ acc) := by
  induction t generalizing acc with
  | nil => simp
  | cons c t' ih =>
    have hc : isWsChar c = false := ht c (List.mem_cons_self _ _)
    simp only [List.cons_append, tokenizeAux, hc, if_false, Bool.false_eq_true]
    rw [show t'.append l = t' ++ l from rfl,
      ih (c :: acc) (fun d hd => ht d (List.mem_cons_of_mem _ hd))]
    simp

theorem joinSpace_ne_nil {t : List Char} {ts : List (List Char)} (h : t ≠ []) :
    joinSpace (t :: ts) ≠ [] := by
  cases ts with
  | nil => simpa [joinSpace] using h
  | cons t' ts' =>
    simp only [joinSpace]
    intro hcontra
    rcases List.append_eq_nil.mp hcontra with ⟨_, h2⟩
    exact List.cons_ne_nil _ _ h2

theorem tokenize_joinSpace (ts : List (List Char))
    (h : ∀ t ∈ ts, t ≠ [] ∧ ∀ c ∈ t, isWsChar c = false) :
    tokenize (joinSpace ts) = ts := by
  induction ts with
  | nil => rfl
  | cons t ts' ih =>
    obtain ⟨ht, htws⟩ := h t (List.mem_cons_self _ _)
    cases ts' with
    | nil =>
      show tokenizeAux (joinSpace [t]) [] = [t]
      have : joinSpace [t] = t ++ [] := by simp [joinSpace]
      rw [this, tokenizeAux_append t [] [] htws]
      simp only [tokenizeAux, List.append_nil]
      rw [if_neg (by simpa [List.isEmpty_iff] using ht)]
      simp
    | cons t2 ts2 =>
      show tokenizeAux (joinSpace (t :: t2 :: ts2)) [] = t :: t2 :: ts2
      have hj : joinSpace (t :: t2 :: ts2) = t ++ (' ' :: joinSpace (t2 :: ts2)) := rfl
      rw [hj, tokenizeAux_append t _ [] htws]
      simp only [tokenizeAux, List.append_nil]
      rw [if_pos (by decide)]
      rw [if_neg (by simpa [List.isEmpty_iff] using ht)]
      rw [List.reverse_reverse]
      have := ih (fun u hu => h u (List.mem_cons_of_mem _ hu))
      rw [show tokenizeAux (joinSpace (t2 :: ts2)) [] = tokenize (joinSpace (t2 :: ts2)) from rfl,
        this]

theorem mem_joinSpace {ts : List (List Char)} {c : Char} (h : c ∈ joinSpace ts) :
    c = ' ' ∨ ∃ t ∈ ts, c ∈ t := by
  induction ts with
  | nil => simp [joinSpace] at h
  | cons t ts' ih =>
    cases ts' with
    | nil =>
      simp only [joinSpace] at h
      exact Or.inr ⟨t, List.mem_cons_self _ _, h⟩
    | cons t2 ts2 =>
      simp only [joinSpace] at h
      rcases List.mem_append.mp h with h | h
      · exact Or.inr ⟨t, List.mem_cons_self _ _, h⟩
      · rcases List.mem_cons.mp h with h | h
        · exact Or.inl h
        · rcases ih h with h | ⟨u, hu, hc⟩
          · exact Or.inl h
          · exact Or.inr ⟨u, List.mem_cons_of_mem _ hu, hc⟩

theorem dropWhile_eq_self_of_head {p : Char → Bool} {l : List Char}
    (h : ∀ hd, l.head? = some hd → p hd = false) : l.dropWhile p = l := by
  cases l with
  | nil => rfl
  | cons c rest =>
    have := h c rfl
    simp [List.dropWhile, this]

theorem joinSpace_append_singleton {ts : List (List Char)} (hne : ts ≠ []) (u : List Char) :
    joinSpace (ts ++ [u]) = joinSpace ts ++ ' ' :: u := by
  induction ts with
  | nil => exact absurd rfl hne
  | cons t ts' ih =>
    cases ts' with
    | nil => rfl
    | cons t2 ts2 =>
      have : joinSpace ((t :: t2 :: ts2) ++ [u]) =
          t ++ ' ' :: joinSpace ((t2 :: ts2) ++ [u]) := rfl
      rw [this, ih (by simp)]
      simp [joinSpace]

theorem joinSpace_reverse (ts : List (List Char)) :
    (joinSpace ts).reverse = joinSpace ((ts.map List.reverse).reverse) := by
  induction ts with
  | nil => rfl
  | cons t ts' ih =>
    cases ts' with
    | nil => simp [joinSpace]
    | cons t2 ts2 =>
      have hj : joinSpace (t :: t2 :: ts2) = t ++ ' ' :: joinSpace (t2 :: ts2) := rfl
      rw [hj]
      have hmapne : ((t2 :: ts2).map List.reverse).reverse ≠ [] := by simp
      calc (t ++ ' ' :: joinSpace (t2 :: ts2)).reverse
          = (joinSpace (t2 :: ts2)).reverse ++ ' ' :: t.reverse := by
            simp
        _ = joinSpace (((t2 :: ts2).map List.reverse).reverse) ++ ' ' :: t.reverse := by
            rw [ih]
        _ = joinSpace ((((t :: t2 :: ts2)).map List.reverse).reverse) := by
            rw [show (((t :: t2 :: ts2)).map List.reverse).reverse =
              ((t2 :: ts2).map List.reverse).reverse ++ [t.reverse] by simp]
            rw [joinSpace_append_singleton hmapne]

theorem head?_joinSpace {t : List Char} (ts : List (List Char)) (h : t ≠ []) :
    (joinSpace (t :: ts)).head? = t.head? := by
  cases ts with
  | nil => rfl
  | cons t2 ts2 =>
    cases t with
    | nil => exact absurd rfl h
    | cons c t' => rfl

theorem trim_joinSpace (ts : List (List Char))
    (h : ∀ t ∈ ts, t ≠ [] ∧ ∀ c ∈ t, isWsChar c = false) :
    trimChars (joinSpace ts) = joinSpace ts := by
  cases ts with
  | nil => rfl
  | cons t ts' =>
    obtain ⟨ht, htws⟩ := h t (List.mem_cons_self _ _)
    unfold trimChars
    have hfront : (joinSpace (t :: ts')).dropWhile isWsChar = joinSpace (t :: ts') := by
      apply dropWhile_eq_self_of_head
      intro hd hhd
      rw [head?_joinSpace ts' ht] at hhd
      cases t with
      | nil => exact absurd rfl ht
      | cons c t' =>
        simp at hhd
        exact hhd ▸ htws c (List.mem_cons_self _ _)
    rw [hfront]
    have hback : (joinSpace (t :: ts')).reverse.dropWhile isWsChar =
        (joinSpace (t :: ts')).reverse := by
      rw [joinSpace_reverse]
      cases hrev : ((t :: ts').map List.reverse).reverse with
      | nil => simp [joinSpace]
      | cons u us =>
        apply dropWhile_eq_self_of_head
        intro hd hhd
        have humem : u ∈ (t :: ts').map List.reverse := by
          rw [← List.mem_reverse, hrev]; exact List.mem_cons_self _ _
        obtain ⟨v, hv, hvu⟩ := List.mem_map.mp humem
        obtain ⟨hvne, hvws⟩ := h v hv
        have hune : u ≠ [] := by
          rw [← hvu]
          simpa using hvne
        rw [head?_joinSpace us hune] at hhd
        cases hu : u with
        | nil => exact absurd hu hune
        | cons c u' =>
          rw [hu] at hhd
          simp at hhd
          subst hhd
          apply hvws
          rw [← List.mem_reverse, hvu, hu]
          exact List.mem_cons_self _ _
    rw [hback, List.reverse_reverse]

/-! ## The two safety predicates the normalizer claim speaks about -/

/-- The output contains no character of the FTS5 special class. -/
def specialFreeStr (s : String) : Prop := ∀ c ∈ s.data, c ∉ SPECIAL

/-- No standalone whitespace-delimited token of the output equals, case
insensitively, a reserved FTS5 operator word. -/
def noOperatorToken (s : String) : Prop :=
  ∀ t ∈ tokenize s.data, String.mk (t.map lowerChar) ∉ OPERATOR_WORDS

theorem sanTokens_sub (raw : String) :
    ∀ t ∈ sanTokens raw,
      t ≠ [] ∧ (∀ c ∈ t, isWsChar c = false) ∧
        (∀ c ∈ t, c ∈ (stripSpecial raw.data).map lowerChar) := by
  intro t ht
  exact tokenize_props _ t (List.mem_of_mem_filter ht)

theorem sanFallback_sub (raw : String) :
    ∀ t ∈ sanFallback raw,
      t ≠ [] ∧ (∀ c ∈ t, isWsChar c = false) ∧ (∀ c ∈ t, c ∈ stripSpecial raw.data) := by
  intro t ht
  exact tokenize_props _ t (List.mem_of_mem_filter ht)

theorem sanitizeQuery_token_path {raw : String} (h : sanTokens raw ≠ []) :
    sanitizeQuery raw = ⟨joinSpace (sanTokens raw)⟩ := by
  unfold sanitizeQuery
  rw [if_neg (by simpa [List.isEmpty_iff] using h)]

theorem sanitizeQuery_fallback_path {raw : String} (h1 : sanTokens raw = [])
    (h2 : trimChars (joinSpace (sanFallback raw)) ≠ []) :
    sanitizeQuery raw = ⟨joinSpace (sanFallback raw)⟩ := by
  unfold sanitizeQuery
  rw [if_pos (by simpa [List.isEmpty_iff] using h1)]
  rw [if_neg (by simpa [List.isEmpty_iff] using h2)]
  rw [trim_joinSpace _ (fun t ht => ⟨(sanFallback_sub raw t ht).1, (sanFallback_sub raw t ht).2.1⟩)]

theorem sanitizeQuery_last_resort_path {raw : String} (h1 : sanTokens raw = [])
    (h2 : trimChars (joinSpace (sanFallback raw)) = []) :
    sanitizeQuery raw = ⟨lastResort raw⟩ := by
  unfold sanitizeQuery
  rw [if_pos (by simpa [List.isEmpty_iff] using h1)]
  rw [if_pos (by simpa [List.isEmpty_iff] using h2)]

/-- C2, counterexample.  On the input `"or"` both the token path and the
fallback path come up empty (the word is a stop word on the first path and a
reserved operator on the second), so `sanitizeQuery` falls through to the
last resort, which returns the alphanumeric-whitespace residue `"or"` of the
original — a standalone reserved operator word.  The claim that the output
never contains such a token on all three paths is therefore false. -/
theorem sanitizeQuery_operator_escape :
    sanitizeQuery "or" = "or" ∧ sanitizeQuery "or" ≠ "" ∧
      ¬ noOperatorToken (sanitizeQuery "or") := by
  refine ⟨by decide, by decide, ?_⟩
  intro h
  have := h ['o', 'r'] (by decide)
  exact this (by decide)

/-- C2, amended.  For every input, the normalizer's output contains no
character of the FTS5 special class (on all three paths); and whenever the
output is produced by the token path or by the fallback path — that is, not
by the last-resort residue — it contains no standalone token equal, case
insensitively, to a reserved operator word.  (The last-resort residue can be
such a word, see `sanitizeQuery_operator_escape`.) -/
theorem sanitizeQuery_safe (raw : String) :
    specialFreeStr (sanitizeQuery raw) ∧
      ((sanTokens raw ≠ [] ∨ trimChars (joinSpace (sanFallback raw)) ≠ []) →
        noOperatorToken (sanitizeQuery raw)) := by
  by_cases h1 : sanTokens raw = []
  · by_cases h2 : trimChars (joinSpace (sanFallback raw)) = []
    · -- last-resort path
      rw [sanitizeQuery_last_resort_path h1 h2]
      constructor
      · intro c hc hspec
        have hc' : c ∈ lastResort raw := hc
        have hc2 := mem_trimChars hc'
        rw [List.mem_map] at hc2
        obtain ⟨d, _, hd⟩ := hc2
        by_cases hw : isWordChar d || isWsChar d
        · rw [if_pos hw] at hd
          rw [← hd] at hspec
          obtain ⟨hnw, hnws⟩ := special_not_word_ws d hspec
          rw [hnw, hnws] at hw
          simp at hw
        · rw [if_neg hw] at hd
          rw [← hd] at hspec
          revert hspec
          decide
      · intro hcond
        rcases hcond with h | h
        · exact absurd h1 h
        · exact absurd h2 h
    · -- fallback path
      rw [sanitizeQuery_fallback_path h1 h2]
      have hdata : (String.mk (joinSpace (sanFallback raw))).data =
          joinSpace (sanFallback raw) := rfl
      constructor
      · intro c hc hspec
        rw [hdata] at hc
        rcases mem_joinSpace hc with h | ⟨t, ht, hct⟩
        · subst h; revert hspec; decide
        · have := (sanFallback_sub raw t ht).2.2 c hct
          exact stripSpecial_not_special this hspec
      · intro _
        intro t ht
        rw [hdata] at ht
        rw [tokenize_joinSpace _ (fun u hu =>
          ⟨(sanFallback_sub raw u hu).1, (sanFallback_sub raw u hu).2.1⟩)] at ht
        have hfilt := List.of_mem_filter ht
        simp only [Bool.and_eq_true, Bool.not_eq_true'] at hfilt
        intro hmem
        have : OPERATOR_WORDS.contains (String.mk (t.map lowerChar)) = true := by
          have : List.elem (String.mk (t.map lowerChar)) OPERATOR_WORDS = true :=
            List.elem_iff.mpr hmem
          simpa [List.contains] using this
        rw [hfilt.2] at this
        exact Bool.false_ne_true this
  · -- token path
    rw [sanitizeQuery_token_path h1]
    have hdata : (String.mk (joinSpace (sanTokens raw))).data =
        joinSpace (sanTokens raw) := rfl
    constructor
    · intro c hc hspec
      rw [hdata] at hc
      rcases mem_joinSpace hc with h | ⟨t, ht, hct⟩
      · subst h; revert hspec; decide
      · have := (sanTokens_sub raw t ht).2.2 c hct
        rw [List.mem_map] at this
        obtain ⟨d, hd, hdc⟩ := this
        subst hdc
        exact lowerChar_not_special (stripSpecial_not_special hd) hspec
    · intro _
      intro t ht
      rw [hdata] at ht
      rw [tokenize_joinSpace _ (fun u hu =>
        ⟨(sanTokens_sub raw u hu).1, (sanTokens_sub raw u hu).2.1⟩)] at ht
      -- tokens of the token path are already lowercase, so lowering is the identity
      have hlow : t.map lowerChar = t := by
        have hsub := (sanTokens_sub raw t ht).2.2
        have : ∀ c ∈ t, lowerChar c = c := by
          intro c hc
          have := hsub c hc
          rw [List.mem_map] at this
          obtain ⟨d, _, hdc⟩ := this
          rw [← hdc]
          exact lowerChar_idem d
        calc t.map lowerChar = t.map id := List.map_congr_left this
          _ = t := List.map_id t
      rw [hlow]
      have hfilt := List.of_mem_filter ht
      simp only [Bool.and_eq_true, Bool.not_eq_true'] at hfilt
      intro hmem
      have : OPERATOR_WORDS.contains (String.mk t) = true := by
        have : List.elem (String.mk t) OPERATOR_WORDS = true := List.elem_iff.mpr hmem
        simpa [List.contains] using this
      rw [hfilt.2] at this
      exact Bool.false_ne_true this

/-- Witness for `sanitizeQuery_safe` at the concrete input
`"JWT uses RS256 signing"`, whose token path is nonempty. -/
theorem sanitizeQuery_safe_witness :
    specialFreeStr (sanitizeQuery "JWT uses RS256 signing") ∧
      noOperatorToken (sanitizeQuery "JWT uses RS256 signing") :=
  ⟨(sanitizeQuery_safe "JWT uses RS256 signing").1,
   (sanitizeQuery_safe "JWT uses RS256 signing").2 (Or.inl (by decide))⟩

/-! ## The data model (`memory`, `memory_tags`, `memory_links`, `memory_fts`)

A `Store` is the database state after the v6 migrations.  Lists are kept in
rowid (insertion) order.  UUIDs are modelled as naturals handed out by the
`nextId` counter; a random UUID never collides with an existing id, which
the theorems mirror by freshness hypotheses. -/

deriving instance DecidableEq for Except

structure Mem where
  id : Nat
  content : String
  category : String
  session_id : Option String
  project_id : Option String
  source : Option String
  time_created : Int
  time_updated : Int
  access_count : Nat
  time_last_accessed : Option Int
deriving DecidableEq, Repr

/-- One row of the `memory_fts` virtual table (`memory_id UNINDEXED, content,
category, source`). -/
structure FtsRow where
  memory_id : Nat
  content : String
  category : String
  source : Option String
deriving DecidableEq, Repr

/-- The row the `memory_ai` / `memory_au` triggers insert for a memory. -/
def ftsOf (m : Mem) : FtsRow :=
  { memory_id := m.id, content := m.content, category := m.category, source := m.source }

/-- One row of `memory_links` (primary key `(source_id, target_id)`). -/
structure Link where
  source_id : Nat
  target_id : Nat
  relationship : String
deriving DecidableEq, Repr

structure Store where
  mems : List Mem
  tags : List (Nat × String)
  links : List Link
  fts : List FtsRow
  nextId : Nat
deriving DecidableEq, Repr

/-- The freshly migrated, empty database. -/
def emptyStore : Store := { mems := [], tags := [], links := [], fts := [], nextId := 0 }

/-- JS `x || null` on an optional string: the empty string collapses to null. -/
def jsOrNull : Option String → Option String
  | some "" => none
  | o => o

/-- JS truthiness of a `string | undefined | null` value. -/
def truthyOpt : Option String → Bool
  | some g => !(g == "")
  | none => false

/-- `SELECT * FROM memory WHERE id = ?` / `getMemory`. -/
def getMemory (s : Store) (id : Nat) : Option Mem :=
  s.mems.find? (fun m => m.id == id)

/-- `ORDER BY time_created DESC` (rows tied on the key keep table order). -/
def createdDesc (a b : Mem) : Prop := b.time_created ≤ a.time_created

instance : DecidableRel createdDesc := fun a b =>
  inferInstanceAs (Decidable (b.time_created ≤ a.time_created))

instance : IsTotal Mem createdDesc := ⟨fun a b => le_total b.time_created a.time_created⟩

instance : IsTrans Mem createdDesc := ⟨fun _ _ _ h1 h2 => le_trans h2 h1⟩

/-- `ORDER BY time_created DESC` as a stable sort. -/
def sortByCreatedDesc (l : List Mem) : List Mem :=
  List.insertionSort createdDesc l

/-- `normalizeText`: lowercase, trim, collapse whitespace runs. -/
def normalizeText (text : String) : String :=
  ⟨collapseWs (trimChars (text.data.map lowerChar))⟩

/-- `computeSimilarity`: Jaccard index over the sets of words of length > 1. -/
def computeSimilarity (a b : String) : ℚ :=
  let wordsA := (((splitSpace a.data).filter (fun w => decide (1 < w.length))).map
    String.mk).dedup
  let wordsB := (((splitSpace b.data).filter (fun w => decide (1 < w.length))).map
    String.mk).dedup
  if wordsA.length = 0 ∧ wordsB.length = 0 then 1
  else if wordsA.length = 0 ∨ wordsB.length = 0 then 0
  else
    ((wordsA.filter (fun w => wordsB.contains w)).length : ℚ) /
      ((wordsA ++ (wordsB.filter (fun w => !(wordsA.contains w)))).length : ℚ)

/-- The scope filter `(project_id = ? OR project_id IS NULL)` applied by the
duplicate scan, the FTS dedup query, and the search query whenever a
(truthy) project id is supplied, and absent otherwise. -/
def dedupScope (s : Store) (projectId : Option String) : List Mem :=
  match projectId with
  | some p => s.mems.filter (fun m => m.project_id == some p || m.project_id == none)
  | none => s.mems

/-- The 100 most recently created memories the exact-duplicate scan walks. -/
def dedupCandidates (s : Store) (projectId : Option String) : List Mem :=
  (sortByCreatedDesc (dedupScope s projectId)).take 100

/-- The candidate rows an FTS5 `MATCH` query returns for the near-duplicate
search, ordered by BM25 rank and limited to 5: abstracted as an oracle.
Theorems quantify over every oracle that returns rows of the queried scope
(`ftsOracleOk`). -/
def FtsOracle : Type := Store → List (List Char) → Option String → List Mem

def ftsOracleOk (oracle : FtsOracle) : Prop :=
  ∀ s q pid, ∀ m ∈ oracle s q pid, m ∈ dedupScope s pid

inductive DupType | exact | near
deriving DecidableEq, Repr

/-- The near-duplicate query tokens: re-tokenize the sanitized content and
drop any remaining operator word (src/unnamed/part_007, lines 120–124). -/
def dedupQueryTokens (content : String) : List (List Char) :=
  (tokenize (sanitizeQuery content).data).filter
    (fun t => decide (0 < t.length) &&
      !(OPERATOR_WORDS.contains (String.mk (t.map lowerChar))))

/-- Sort tokens by descending length (`(a, b) => b.length - a.length`). -/
def lenDesc (a b : List Char) : Prop := b.length ≤ a.length

instance : DecidableRel lenDesc := fun a b =>
  inferInstanceAs (Decidable (b.length ≤ a.length))

/-- The `max(3, ceil(total * 0.6))` longest tokens composed into the OR
query (lines 130–132; `Math.ceil(n * 0.6)` is exact rational ceiling here). -/
def dedupOrQuery (content : String) : List (List Char) :=
  (List.insertionSort lenDesc (dedupQueryTokens content)).take
    (max 3 (((dedupQueryTokens content).length * 6 + 9) / 10))

/-- `findDuplicate` (src/unnamed/part_007, lines 94–167). -/
def findDuplicate (oracle : FtsOracle) (s : Store) (content : String)
    (projectId : Option String) : Option (DupType × Mem) :=
  match (dedupCandidates s projectId).find?
      (fun m => normalizeText m.content == normalizeText content) with
  | some m => some (DupType.exact, m)
  | none =>
    if (dedupQueryTokens content).isEmpty then none
    else
      match (oracle s (dedupOrQuery content) projectId).find?
          (fun r => decide ((3 : ℚ)/5 <
            computeSimilarity (normalizeText content) (normalizeText r.content))) with
      | some r => some (DupType.near, r)
      | none => none

/-- `INSERT OR IGNORE INTO memory_tags (memory_id, tag) VALUES (?, ?)`. -/
def insertTagRow (s : Store) (id : Nat) (tag : String) : Store :=
  if (id, tag) ∈ s.tags then s else { s with tags := s.tags ++ [(id, tag)] }

/-- `tag.toLowerCase().trim()`, applied to every tag on entry. -/
def normTag (t : String) : String := ⟨trimChars (t.data.map lowerChar)⟩

/-- The `memory_au` trigger: delete the FTS row of the updated memory and
re-insert it from the new row values. -/
def triggerAu (mems : List Mem) (fts : List FtsRow) (id : Nat) : List FtsRow :=
  fts.filter (fun r => !(r.memory_id == id)) ++
    ((mems.find? (fun m => m.id == id)).map ftsOf).toList

structure UpdateInput where
  content : Option String
  category : Option String
  source : Option String
deriving DecidableEq, Repr

/-- The empty patch (no fields supplied). -/
def emptyPatch : UpdateInput := { content := none, category := none, source := none }

/-- The row an update writes: exactly the supplied fields are overwritten
and `time_updated` is stamped. -/
def patchedMem (existing : Mem) (u : UpdateInput) (now : Int) : Mem :=
  { existing with
    content := u.content.getD existing.content,
    category := u.category.getD existing.category,
    source := match u.source with | some v => some v | none => existing.source,
    time_updated := now }

/-- `UPDATE memory SET ... WHERE id = ?` together with its `memory_au`
trigger. -/
def applyUpdateRows (s : Store) (id : Nat) (updated : Mem) : Store :=
  { s with
    mems := s.mems.map (fun m => if m.id == id then updated else m),
    fts := triggerAu (s.mems.map (fun m => if m.id == id then updated else m)) s.fts id }

/-- `updateMemory` (src/unnamed/part_007, lines 358–391).  Returns the
post-state together with the value the function returns; it throws for no
input. -/
def updateMemory (s : Store) (id : Nat) (u : UpdateInput) (now : Int) :
    Store × Option Mem :=
  match getMemory s id with
  | none => (s, none)
  | some existing =>
    if u.content = none ∧ u.category = none ∧ u.source = none then (s, some existing)
    else
      (applyUpdateRows s id (patchedMem existing u now),
       getMemory (applyUpdateRows s id (patchedMem existing u now)) id)

structure StoreInput where
  content : String
  category : Option String := none
  sessionId : Option String := none
  projectId : Option String := none
  source : Option String := none
  tags : List String := []
  global : Bool := false
  force : Bool := false
deriving Repr

/-- `const projectId = input.global ? null : (input.projectId || null)`. -/
def effProjectId (input : StoreInput) : Option String :=
  if input.global then none else jsOrNull input.projectId

/-- The patch a near-duplicate merge applies to the existing memory:
`{content, category: input.category || dup.category, source: input.source ||
dup.source || undefined}`. -/
def nearPatch (input : StoreInput) (m : Mem) : UpdateInput :=
  { content := some input.content,
    category := some ((jsOrNull input.category).getD m.category),
    source := match jsOrNull input.source with
      | some v => some v
      | none => jsOrNull m.source }

/-- The fresh row (and return value) of a plain insert. -/
def insertedMem (s : Store) (input : StoreInput) (now : Int) : Mem :=
  { id := s.nextId,
    content := input.content,
    category := (jsOrNull input.category).getD "general",
    session_id := jsOrNull input.sessionId,
    project_id := effProjectId input,
    source := jsOrNull input.source,
    time_created := now,
    time_updated := now,
    access_count := 0,
    time_last_accessed := none }

/-- The state after the `INSERT INTO memory` (with its `memory_ai` trigger)
and the tag-attachment loop of a plain insert. -/
def insertState (s : Store) (input : StoreInput) (now : Int) : Store :=
  input.tags.foldl (fun st t => insertTagRow st s.nextId (normTag t))
    { s with mems := s.mems ++ [insertedMem s input now],
             fts := s.fts ++ [ftsOf (insertedMem s input now)],
             nextId := s.nextId + 1 }

/-- `storeMemory` (src/unnamed/part_007, lines 186–254).  Validation errors
are thrown before any write, so they leave the state unchanged. -/
def storeMemory (oracle : FtsOracle) (s : Store) (input : StoreInput) (now : Int) :
    Store × Except String Mem :=
  if (trimChars input.content.data).isEmpty then
    (s, Except.error "Memory content cannot be empty")
  else if 10000 < input.content.length then
    (s, Except.error "Memory content exceeds maximum length of 10000 characters")
  else
    match (if input.force then none
           else findDuplicate oracle s input.content (effProjectId input)) with
    | some (DupType.exact, m) => (s, Except.ok m)
    | some (DupType.near, m) =>
      ((updateMemory s m.id (nearPatch input m) now).1,
       Except.ok ((updateMemory s m.id (nearPatch input m) now).2.getD m))
    | none => (insertState s input now, Except.ok (insertedMem s input now))

/-- `deleteMemory`: `DELETE FROM memory WHERE id = ?`.  The `ON DELETE
CASCADE` clauses of `memory_tags` and `memory_links` (with
`PRAGMA foreign_keys = ON`) remove the referencing rows, and the `memory_ad`
trigger removes the FTS row, inside the same statement. -/
def deleteMemory (s : Store) (id : Nat) : Store × Bool :=
  (({ mems := s.mems.filter (fun m => !(m.id == id)),
      tags := s.tags.filter (fun p => !(p.1 == id)),
      links := s.links.filter (fun l => !(l.source_id == id || l.target_id == id)),
      fts := s.fts.filter (fun r => !(r.memory_id == id)),
      nextId := s.nextId } : Store),
   s.mems.any (fun m => m.id == id))

/-- `access_count = access_count + 5, time_last_accessed = now`. -/
def refreshTick (now : Int) (m : Mem) : Mem :=
  { m with access_count := m.access_count + 5, time_last_accessed := some now }

/-- `access_count = access_count + 1, time_last_accessed = now`. -/
def searchTick (now : Int) (m : Mem) : Mem :=
  { m with access_count := m.access_count + 1, time_last_accessed := some now }

/-- `refreshMemory`: adds 5 to `access_count`, stamps `time_last_accessed`;
the `memory_au` trigger rewrites the (unchanged) FTS row. -/
def refreshMemory (s : Store) (id : Nat) (now : Int) : Store × Option Mem :=
  match getMemory s id with
  | none => (s, none)
  | some _ =>
    let mems := s.mems.map (fun m => if m.id == id then refreshTick now m else m)
    let s' := { s with mems := mems, fts := triggerAu mems s.fts id }
    (s', getMemory s' id)

/-- The write-back of `searchMemories` (lines 326–333): for every returned
row, add 1 to `access_count` and stamp `time_last_accessed`. -/
def bumpAccess (s : Store) (ids : List Nat) (now : Int) : Store :=
  ids.foldl (fun st id =>
    match getMemory st id with
    | none => st
    | some _ =>
      let mems := st.mems.map (fun m => if m.id == id then searchTick now m else m)
      { st with mems := mems, fts := triggerAu mems st.fts id }) s

/-! ### Tag operations -/

def tagsForMemory (s : Store) (id : Nat) : List String :=
  (s.tags.filter (fun p => p.1 == id)).map (fun p => p.2)

/-- `addTags`: each `INSERT OR IGNORE` raises on the foreign-key constraint
when the memory does not exist (OR IGNORE does not cover FK violations). -/
def addTags (s : Store) (id : Nat) (tags : List String) : Store × Except String Unit :=
  if tags.isEmpty then (s, Except.ok ())
  else if (getMemory s id).isSome then
    (tags.foldl (fun st t => insertTagRow st id (normTag t)) s, Except.ok ())
  else (s, Except.error "FOREIGN KEY constraint failed")

/-- `setTags`: delete all tag rows of the memory, then insert the new ones
(the delete is its own statement, so it persists even when a subsequent
insert raises the foreign-key error). -/
def setTags (s : Store) (id : Nat) (tags : List String) : Store × Except String Unit :=
  let s1 := { s with tags := s.tags.filter (fun p => !(p.1 == id)) }
  if tags.isEmpty then (s1, Except.ok ())
  else if (getMemory s id).isSome then
    (tags.foldl (fun st t => insertTagRow st id (normTag t)) s1, Except.ok ())
  else (s1, Except.error "FOREIGN KEY constraint failed")

def removeTags (s : Store) (id : Nat) (tags : List String) : Store :=
  tags.foldl (fun st t =>
    { st with tags := st.tags.filter (fun p => !(p.1 == id && p.2 == normTag t)) }) s

/-- The WHERE clause of `searchByTag`: the memory carries the tag, and
matches the project when one is (truthily) supplied. -/
def tagMatches (s : Store) (t : String) (projectId : Option String) (m : Mem) : Bool :=
  s.tags.contains (m.id, t) &&
    (match projectId with
     | some p => m.project_id == some p
     | none => true)

/-- `searchByTag`: join on the tag (lowercased and trimmed on entry), filter
by project when one is (truthily) supplied, newest first, limited. -/
def searchByTag (s : Store) (tag : String) (projectId : Option String) (limit : Nat) :
    List Mem :=
  (sortByCreatedDesc (s.mems.filter (tagMatches s (normTag tag) projectId))).take limit

/-! ### Link operations -/

/-- The CHECK constraint of `memory_links.relationship` (migration v4). -/
def allowedRels : List String := ["related", "supersedes", "contradicts", "extends"]

def linkLookup (s : Store) (a b : Nat) : Option String :=
  (s.links.find? (fun l => l.source_id == a && l.target_id == b)).map
    (fun l => l.relationship)

/-- `addLink` (src/unnamed/part_007, lines 565–579).  The relationship is
not validated in code; an out-of-set value hits the CHECK constraint of the
`INSERT OR REPLACE`, which raises. -/
def addLink (s : Store) (sourceId targetId : Nat) (relationship : String) :
    Store × Except String Bool :=
  if (getMemory s sourceId).isNone || (getMemory s targetId).isNone then
    (s, Except.ok false)
  else if sourceId == targetId then (s, Except.ok false)
  else if allowedRels.contains relationship then
    ({ s with links := s.links.filter (fun l =>
        !(l.source_id == sourceId && l.target_id == targetId)) ++
        [{ source_id := sourceId, target_id := targetId, relationship := relationship }] },
     Except.ok true)
  else (s, Except.error "CHECK constraint failed: relationship")

def removeLink (s : Store) (sourceId targetId : Nat) : Store × Bool :=
  (({ s with links := s.links.filter (fun l =>
      !(l.source_id == sourceId && l.target_id == targetId)) } : Store),
   s.links.any (fun l => l.source_id == sourceId && l.target_id == targetId))

/-- `getLinksForMemory`: every edge touching the memory, in either
direction (rowid order; the join partner always exists under referential
integrity). -/
def getLinksForMemory (s : Store) (memoryId : Nat) : List Link :=
  s.links.filter (fun l => l.source_id == memoryId || l.target_id == memoryId)

/-! ### Maintenance (src/src/maintenance.ts) -/

/-- `DELETE FROM memory WHERE id IN (...)` with its cascades and triggers. -/
def deleteByIds (s : Store) (ids : List Nat) : Store × Nat :=
  (({ mems := s.mems.filter (fun m => !(ids.contains m.id)),
      tags := s.tags.filter (fun p => !(ids.contains p.1)),
      links := s.links.filter (fun l =>
        !(ids.contains l.source_id || ids.contains l.target_id)),
      fts := s.fts.filter (fun r => !(ids.contains r.memory_id)),
      nextId := s.nextId } : Store),
   (s.mems.filter (fun m => ids.contains m.id)).length)

/-- `purgeOldMemories(olderThanDays)`. -/
def purgeOldMemories (s : Store) (olderThanDays : Int) (now : Int) : Store × Nat :=
  let cutoff := now - olderThanDays * 86400
  deleteByIds s ((s.mems.filter (fun m =>
    decide (m.time_created < cutoff) && m.access_count == 0 &&
      m.time_last_accessed == none)).map (fun m => m.id))

/-- `ORDER BY access_count ASC, time_created ASC`. -/
def lexLe (a b : Mem) : Prop :=
  a.access_count < b.access_count ∨
    (a.access_count = b.access_count ∧ a.time_created ≤ b.time_created)

instance : DecidableRel lexLe := fun a b =>
  inferInstanceAs (Decidable (a.access_count < b.access_count ∨
    (a.access_count = b.access_count ∧ a.time_created ≤ b.time_created)))

instance : IsTotal Mem lexLe := ⟨fun a b => by
  unfold lexLe
  rcases Nat.lt_trichotomy a.access_count b.access_count with h | h | h
  · exact Or.inl (Or.inl h)
  · rcases le_total a.time_created b.time_created with ht | ht
    · exact Or.inl (Or.inr ⟨h, ht⟩)
    · exact Or.inr (Or.inr ⟨h.symm, ht⟩)
  · exact Or.inr (Or.inl h)⟩

instance : IsTrans Mem lexLe := ⟨fun a b c h1 h2 => by
  unfold lexLe at *
  rcases h1 with h1 | ⟨h1e, h1t⟩ <;> rcases h2 with h2 | ⟨h2e, h2t⟩
  · exact Or.inl (h1.trans h2)
  · exact Or.inl (h2e ▸ h1)
  · exact Or.inl (h1e ▸ h2)
  · exact Or.inr ⟨h1e.trans h2e, h1t.trans h2t⟩⟩

/-- The victims of cap enforcement: the `excess` first rows in
`access_count ASC, time_created ASC` order. -/
def capVictims (s : Store) (excess : Nat) : List Mem :=
  (List.insertionSort lexLe s.mems).take excess

/-- `enforceMaxMemories` (src/src/maintenance.ts, lines 52–75). -/
def enforceMaxMemories (maxMemories : Int) (s : Store) : Store × Nat :=
  if maxMemories ≤ 0 then (s, 0)
  else if (s.mems.length : Int) ≤ maxMemories then (s, 0)
  else
    deleteByIds s ((capVictims s (s.mems.length - maxMemories.toNat)).map (fun m => m.id))

/-- The row-level effect of `runMaintenance`: the FTS `optimize` command,
the database-size probe and the metadata stamp do not touch any `memory`,
`memory_tags`, `memory_links` or `memory_fts` row, and `memoriesPurged` is
never set by the source, so the only row effect is `enforceMaxMemories`
(returned as `memoriesTrimmed`). -/
def runMaintenance (maxMemories : Int) (s : Store) : Store × Nat :=
  enforceMaxMemories maxMemories s

/-! ## Basic store lemmas -/

/-- `insert`'s validation accepts exactly the non-blank contents of length
at most 10,000. -/
def validContent (c : String) : Prop := trimChars c.data ≠ [] ∧ c.length ≤ 10000

/-- A store holding the given rows, no tags and no links, with the matching
FTS mirror (the state produced by plain inserts). -/
def storeOfMems (l : List Mem) (next : Nat) : Store :=
  { mems := l, tags := [], links := [], fts := l.map ftsOf, nextId := next }

theorem dedupScope_sub {s : Store} {pid : Option String} {m : Mem}
    (h : m ∈ dedupScope s pid) : m ∈ s.mems := by
  unfold dedupScope at h
  cases pid with
  | none => exact h
  | some p => exact List.mem_of_mem_filter h

theorem dedupCandidates_sub {s : Store} {pid : Option String} {m : Mem}
    (h : m ∈ dedupCandidates s pid) : m ∈ s.mems := by
  unfold dedupCandidates sortByCreatedDesc at h
  exact dedupScope_sub ((List.perm_insertionSort _ _).mem_iff.mp (List.mem_of_mem_take h))

theorem findDuplicate_empty (oracle : FtsOracle) (hor : ftsOracleOk oracle)
    (c : String) (pid : Option String) :
    findDuplicate oracle emptyStore c pid = none := by
  have hscope : dedupScope emptyStore pid = [] := by
    unfold dedupScope emptyStore
    cases pid <;> simp
  have hcand : dedupCandidates emptyStore pid = [] := by
    unfold dedupCandidates sortByCreatedDesc
    rw [hscope]
    simp
  unfold findDuplicate
  rw [hcand]
  simp only [List.find?_nil]
  by_cases ht : (dedupQueryTokens c).isEmpty
  · rw [if_pos ht]
  · rw [if_neg ht]
    have hres : oracle emptyStore (dedupOrQuery c) pid = [] := by
      apply List.eq_nil_iff_forall_not_mem.mpr
      intro m hm
      have := hor emptyStore _ pid m hm
      rw [hscope] at this
      exact List.not_mem_nil m this
    rw [hres]
    simp

theorem findDuplicate_exact_of_mem (oracle : FtsOracle) (s : Store) (c : String)
    (pid : Option String)
    (h : ∃ m ∈ dedupCandidates s pid, normalizeText m.content = normalizeText c) :
    ∃ m', findDuplicate oracle s c pid = some (DupType.exact, m') ∧
      m' ∈ dedupCandidates s pid ∧ normalizeText m'.content = normalizeText c := by
  obtain ⟨m, hm, hnorm⟩ := h
  unfold findDuplicate
  cases hf : (dedupCandidates s pid).find?
      (fun m => normalizeText m.content == normalizeText c) with
  | none =>
    exfalso
    have := List.find?_eq_none.mp hf m hm
    simp [hnorm] at this
  | some m' =>
    refine ⟨m', rfl, List.mem_of_find?_eq_some hf, ?_⟩
    have := List.find?_some hf
    simpa using this

theorem storeMemory_exact (oracle : FtsOracle) (s : Store) (inp : StoreInput) (now : Int)
    {m : Mem} (hforce : inp.force = false) (hv : validContent inp.content)
    (h : findDuplicate oracle s inp.content (effProjectId inp) = some (DupType.exact, m)) :
    storeMemory oracle s inp now = (s, Except.ok m) := by
  unfold storeMemory
  rw [if_neg (by simp [List.isEmpty_iff, hv.1]),
    if_neg (by simp only [not_lt]; exact hv.2), hforce]
  rw [if_neg (by simp), h]

theorem insertTagRow_parts (s : Store) (id : Nat) (t : String) :
    (insertTagRow s id t).mems = s.mems ∧ (insertTagRow s id t).links = s.links ∧
    (insertTagRow s id t).fts = s.fts ∧ (insertTagRow s id t).nextId = s.nextId := by
  unfold insertTagRow
  split <;> exact ⟨rfl, rfl, rfl, rfl⟩

/-- The tag-insertion loop only touches the `memory_tags` table. -/
theorem foldl_insertTagRow_parts (tags : List String) (s : Store) (id : Nat) :
    (tags.foldl (fun st t => insertTagRow st id (normTag t)) s).mems = s.mems ∧
    (tags.foldl (fun st t => insertTagRow st id (normTag t)) s).links = s.links ∧
    (tags.foldl (fun st t => insertTagRow st id (normTag t)) s).fts = s.fts ∧
    (tags.foldl (fun st t => insertTagRow st id (normTag t)) s).nextId = s.nextId := by
  induction tags generalizing s with
  | nil => exact ⟨rfl, rfl, rfl, rfl⟩
  | cons t rest ih =>
    simp only [List.foldl_cons]
    obtain ⟨h1, h2, h3, h4⟩ := ih (insertTagRow s id (normTag t))
    obtain ⟨g1, g2, g3, g4⟩ := insertTagRow_parts s id (normTag t)
    exact ⟨h1.trans g1, h2.trans g2, h3.trans g3, h4.trans g4⟩

theorem storeMemory_ins (oracle : FtsOracle) (s : Store) (inp : StoreInput) (now : Int)
    (hv : validContent inp.content)
    (h : inp.force = true ∨ findDuplicate oracle s inp.content (effProjectId inp) = none) :
    storeMemory oracle s inp now = (insertState s inp now, Except.ok (insertedMem s inp now)) := by
  unfold storeMemory
  rw [if_neg (by simp [List.isEmpty_iff, hv.1]),
    if_neg (by simp only [not_lt]; exact hv.2)]
  rcases h with h | h
  · rw [h, if_pos rfl]
  · by_cases hf : inp.force
    · rw [if_pos hf]
    · rw [if_neg hf, h]

theorem dedupCandidates_singleton (m : Mem) (next : Nat) :
    dedupCandidates (storeOfMems [m] next) none = [m] := by
  unfold dedupCandidates dedupScope sortByCreatedDesc storeOfMems
  simp

theorem findDuplicate_exact_singleton (oracle : FtsOracle) (m : Mem) (next : Nat)
    (c : String) (h : normalizeText m.content = normalizeText c) :
    findDuplicate oracle (storeOfMems [m] next) c none = some (DupType.exact, m) := by
  unfold findDuplicate
  rw [dedupCandidates_singleton,
    List.find?_cons_of_pos _ (by simp only [beq_iff_eq]; exact h)]

/-- C3: deduplication idempotence of insert, and case/whitespace
insensitivity of exact-duplicate detection.  Starting from the empty store,
`insert(c)` creates exactly one row; `insert(c)` again (without force)
returns that stored memory and leaves the store unchanged; `insert(c,
force=true)` instead yields a second row.  A second insert whose content is
equal to the stored content up to letter case, leading/trailing whitespace
and internal whitespace runs (that is, up to `normalizeText`) likewise
returns the first memory unchanged.  The final conjunct is the general form:
whenever any candidate of the duplicate scan normalizes to the inserted
content, a non-forced insert returns an already-stored memory and does not
change the store.  All of this holds for every FTS oracle that returns rows
of the queried scope. -/
theorem insert_dedup_idempotent (oracle : FtsOracle) (hor : ftsOracleOk oracle)
    (c : String) (hc : validContent c) (now₁ now₂ : Int)
    (s1 : Store) (m1 : Mem)
    (h1 : storeMemory oracle emptyStore { content := c } now₁ = (s1, Except.ok m1)) :
    s1.mems = [m1] ∧
    storeMemory oracle s1 { content := c } now₂ = (s1, Except.ok m1) ∧
    (storeMemory oracle s1 { content := c, force := true } now₂).1.mems.length = 2 ∧
    (∀ c', validContent c' → normalizeText c' = normalizeText c →
      storeMemory oracle s1 { content := c' } now₂ = (s1, Except.ok m1)) ∧
    (∀ (s : Store) (inp : StoreInput), inp.force = false → validContent inp.content →
      (∃ m ∈ dedupCandidates s (effProjectId inp),
        normalizeText m.content = normalizeText inp.content) →
      ∃ m', storeMemory oracle s inp now₂ = (s, Except.ok m') ∧ m' ∈ s.mems ∧
        normalizeText m'.content = normalizeText inp.content) := by
  have hfd := findDuplicate_empty oracle hor c (effProjectId { content := c })
  have hcomp := storeMemory_ins oracle emptyStore { content := c } now₁ hc (Or.inr hfd)
  rw [hcomp] at h1
  have hs1 : s1 = insertState emptyStore { content := c } now₁ :=
    ((Prod.mk.injEq _ _ _ _).mp h1).1.symm
  have hm1 : m1 = insertedMem emptyStore { content := c } now₁ :=
    (Except.ok.inj ((Prod.mk.injEq _ _ _ _).mp h1).2).symm
  have hs1' : s1 = storeOfMems [m1] 1 := by
    rw [hs1, hm1]
    rfl
  have hm1c : m1.content = c := by rw [hm1]; rfl
  refine ⟨by rw [hs1']; rfl, ?_, ?_, ?_, ?_⟩
  · -- inserting the identical content again: exact duplicate, store unchanged
    rw [hs1']
    exact storeMemory_exact oracle (storeOfMems [m1] 1) { content := c } now₂ rfl hc
      (findDuplicate_exact_singleton oracle m1 1 c (by rw [hm1c]))
  · -- force = true skips dedup and appends a second row
    have := storeMemory_ins oracle s1 { content := c, force := true } now₂ hc (Or.inl rfl)
    rw [this]
    unfold insertState
    simp only [List.foldl_nil]
    rw [hs1']
    rfl
  · -- contents equal up to normalizeText dedup to the same memory
    intro c' hc' hnorm
    rw [hs1']
    exact storeMemory_exact oracle (storeOfMems [m1] 1) { content := c' } now₂ rfl hc'
      (findDuplicate_exact_singleton oracle m1 1 c' (by rw [hm1c, hnorm]))
  · -- general form of the exact-duplicate short circuit
    intro s inp hforce hv hex
    obtain ⟨m', hfd', hmem, hnorm⟩ := findDuplicate_exact_of_mem oracle s inp.content
      (effProjectId inp) hex
    exact ⟨m', storeMemory_exact oracle s inp now₂ hforce hv hfd', dedupCandidates_sub hmem, hnorm⟩

/-- Witness for `insert_dedup_idempotent` at the spec's concrete scenario:
insert `"JWT uses RS256 signing"`, then the case/whitespace variant
`"  jwt  uses  rs256  signing  "` dedups to the same row. -/
theorem insert_dedup_idempotent_witness :
    (storeMemory (fun _ _ _ => []) emptyStore { content := "JWT uses RS256 signing" } 100).1.mems =
      [insertedMem emptyStore { content := "JWT uses RS256 signing" } 100] ∧
    storeMemory (fun _ _ _ => [])
        (storeMemory (fun _ _ _ => []) emptyStore
          { content := "JWT uses RS256 signing" } 100).1
        { content := "  jwt  uses  rs256  signing  " } 200 =
      ((storeMemory (fun _ _ _ => []) emptyStore
          { content := "JWT uses RS256 signing" } 100).1,
       Except.ok (insertedMem emptyStore { content := "JWT uses RS256 signing" } 100)) := by
  have h := insert_dedup_idempotent (fun _ _ _ => [])
    (by intro s q pid m hm; simp at hm)
    "JWT uses RS256 signing" (by constructor <;> decide) 100 200
    (storeMemory (fun _ _ _ => []) emptyStore
      { content := "JWT uses RS256 signing" } 100).1
    (insertedMem emptyStore { content := "JWT uses RS256 signing" } 100)
    (by decide)
  exact ⟨h.1, h.2.2.2.1 "  jwt  uses  rs256  signing  " (by constructor <;> decide) (by decide)⟩

/-! ## C4: update semantics -/

theorem emptyPatch_iff (u : UpdateInput) :
    u = emptyPatch ↔ u.content = none ∧ u.category = none ∧ u.source = none := by
  cases u
  constructor
  · intro h
    injection h with h1 h2 h3
    exact ⟨h1, h2, h3⟩
  · rintro ⟨h1, h2, h3⟩
    simp only at h1 h2 h3
    rw [show emptyPatch = { content := none, category := none, source := none } from rfl,
      h1, h2, h3]

theorem find?_map_update (mems : List Mem) (id : Nat) (updated : Mem)
    (hid : updated.id = id)
    (hex : (mems.find? (fun m => m.id == id)).isSome) :
    (mems.map (fun m => if m.id == id then updated else m)).find?
      (fun m => m.id == id) = some updated := by
  induction mems with
  | nil => simp at hex
  | cons m rest ih =>
    simp only [List.map_cons]
    by_cases hm : m.id == id
    · rw [if_pos hm]
      exact List.find?_cons_of_pos _ (by simp [hid])
    · rw [if_neg hm, List.find?_cons_of_neg (p := fun x : Mem => x.id == id) _ hm]
      apply ih
      rw [List.find?_cons_of_neg (p := fun x : Mem => x.id == id) _ hm] at hex
      exact hex

theorem getMemory_applyUpdateRows {s : Store} {id : Nat} {ex : Mem}
    (hg : getMemory s id = some ex) (updated : Mem) (hid : updated.id = id) :
    getMemory (applyUpdateRows s id updated) id = some updated := by
  unfold getMemory applyUpdateRows
  exact find?_map_update s.mems id updated hid (by unfold getMemory at hg; simp [hg])

theorem updateMemory_none {s : Store} {id : Nat} {u : UpdateInput} {now : Int}
    (h : getMemory s id = none) : updateMemory s id u now = (s, none) := by
  unfold updateMemory
  rw [h]

theorem updateMemory_some {s : Store} {id : Nat} {ex : Mem} (u : UpdateInput) (now : Int)
    (hg : getMemory s id = some ex) :
    updateMemory s id u now =
      if u.content = none ∧ u.category = none ∧ u.source = none then (s, some ex)
      else (applyUpdateRows s id (patchedMem ex u now),
            getMemory (applyUpdateRows s id (patchedMem ex u now)) id) := by
  unfold updateMemory
  rw [hg]

/-- C4, amended.  `update(id, patch)` returns null exactly when the id is
unknown and never throws (it is a total function into an option).  When the
memory exists and at least one field is supplied, exactly the supplied
fields among `{content, category, source}` are overwritten and
`time_updated` is set to the current time.  When the memory exists and the
patch is empty, the function returns the memory unchanged — without
touching `time_updated` — and leaves the store as it was. -/
theorem updateMemory_spec (s : Store) (id : Nat) (u : UpdateInput) (now : Int) :
    ((updateMemory s id u now).2 = none ↔ getMemory s id = none) ∧
    (∀ ex, getMemory s id = some ex → u = emptyPatch →
      updateMemory s id u now = (s, some ex)) ∧
    (∀ ex, getMemory s id = some ex → u ≠ emptyPatch →
      (updateMemory s id u now).2 = some (patchedMem ex u now) ∧
      (patchedMem ex u now).time_updated = now ∧
      (patchedMem ex u now).content = u.content.getD ex.content ∧
      (patchedMem ex u now).category = u.category.getD ex.category ∧
      (patchedMem ex u now).source =
        (match u.source with | some v => some v | none => ex.source) ∧
      (patchedMem ex u now).id = ex.id ∧
      (patchedMem ex u now).session_id = ex.session_id ∧
      (patchedMem ex u now).project_id = ex.project_id ∧
      (patchedMem ex u now).time_created = ex.time_created ∧
      (patchedMem ex u now).access_count = ex.access_count) := by
  refine ⟨?_, ?_, ?_⟩
  · cases hg : getMemory s id with
    | none => rw [updateMemory_none hg]
    | some ex =>
      rw [updateMemory_some u now hg]
      by_cases hu : u.content = none ∧ u.category = none ∧ u.source = none
      · rw [if_pos hu]
      · rw [if_neg hu]
        simp only
        have hexid : ex.id = id := by
          have := List.find?_some hg
          simpa using this
        rw [getMemory_applyUpdateRows hg (patchedMem ex u now) (by simp [patchedMem, hexid])]
        simp
  · intro ex hex hemp
    rw [updateMemory_some u now hex, if_pos ((emptyPatch_iff u).mp hemp)]
  · intro ex hex hemp
    have hexid : ex.id = id := by
      have := List.find?_some hex
      simpa using this
    rw [updateMemory_some u now hex, if_neg (fun hc => hemp ((emptyPatch_iff u).mpr hc))]
    simp only
    rw [getMemory_applyUpdateRows hex (patchedMem ex u now) (by simp [patchedMem, hexid])]
    exact ⟨rfl, rfl, rfl, rfl, rfl, rfl, rfl, rfl, rfl, rfl⟩

/-- The one-row fixture used by concrete update/link evaluations. -/
def memA : Mem :=
  { id := 0, content := "alpha beta", category := "general", session_id := none,
    project_id := none, source := none, time_created := 1, time_updated := 5,
    access_count := 0, time_last_accessed := none }

def fixA : Store := storeOfMems [memA] 1

/-- C4, counterexample.  The claim says `time_updated` is always set to the
current time, for every patch including the empty one; but on the empty
patch the code returns the row early and leaves `time_updated` at its old
value (5, not the current time 99). -/
theorem updateMemory_empty_patch_no_bump :
    updateMemory fixA 0 emptyPatch 99 = (fixA, some memA) ∧
      memA.time_updated = 5 ∧ (5 : Int) ≠ 99 := by decide

/-- A concrete content-only patch. -/
def patchA : UpdateInput := { content := some "new content", category := none, source := none }

/-- Witness for `updateMemory_spec`: updating the fixture's content stamps
`time_updated` with the current time and overwrites only the content. -/
theorem updateMemory_spec_witness :
    (updateMemory fixA 0 patchA 50).2 = some (patchedMem memA patchA 50) ∧
    (patchedMem memA patchA 50).time_updated = 50 := by
  have h := ((updateMemory_spec fixA 0 patchA 50).2.2) memA (by decide)
    (by intro hc; exact absurd hc (by decide))
  exact ⟨h.1, h.2.1⟩

/-! ## C6: link add -/

/-- C6, amended.  `addLink` returns false — without raising — when either id
does not name an existing memory or when source equals target; when both
memories exist, the ids differ and the relationship is in the allowed set it
upserts the directed edge (replacing any existing edge for the ordered pair)
and returns true; but when the relationship is outside the allowed set it
raises the CHECK-constraint error of the insert instead of returning
false. -/
theorem addLink_spec (s : Store) (a b : Nat) (rel : String) :
    ((getMemory s a = none ∨ getMemory s b = none ∨ a = b) →
      addLink s a b rel = (s, Except.ok false)) ∧
    (getMemory s a ≠ none → getMemory s b ≠ none → a ≠ b → rel ∈ allowedRels →
      addLink s a b rel =
        ({ s with links := s.links.filter (fun l =>
            !(l.source_id == a && l.target_id == b)) ++
            [{ source_id := a, target_id := b, relationship := rel }] },
         Except.ok true) ∧
      linkLookup (addLink s a b rel).1 a b = some rel) ∧
    (getMemory s a ≠ none → getMemory s b ≠ none → a ≠ b → rel ∉ allowedRels →
      addLink s a b rel = (s, Except.error "CHECK constraint failed: relationship")) := by
  refine ⟨?_, ?_, ?_⟩
  · intro h
    unfold addLink
    rcases h with h | h | h
    · rw [if_pos (by simp [h])]
    · rw [if_pos (by simp [h])]
    · by_cases hn : (getMemory s a).isNone || (getMemory s b).isNone
      · rw [if_pos hn]
      · rw [if_neg hn, if_pos (by simp [h])]
  · intro ha hb hab hrel
    have heq : addLink s a b rel =
        ({ s with links := s.links.filter (fun l =>
            !(l.source_id == a && l.target_id == b)) ++
            [{ source_id := a, target_id := b, relationship := rel }] },
         Except.ok true) := by
      unfold addLink
      rw [if_neg (by simp [Option.isNone_iff_eq_none, ha, hb]),
        if_neg (by simp [hab]),
        if_pos (by rw [List.contains_iff_exists_mem_beq]; exact ⟨rel, hrel, by simp⟩)]
    refine ⟨heq, ?_⟩
    rw [heq]
    unfold linkLookup
    simp only
    rw [List.find?_append]
    have hnone : (s.links.filter (fun l =>
        !(l.source_id == a && l.target_id == b))).find?
        (fun l => l.source_id == a && l.target_id == b) = none := by
      rw [List.find?_eq_none]
      intro l hl
      have := List.of_mem_filter hl
      simp only [Bool.not_eq_true'] at this
      simp [this]
    rw [hnone]
    simp
  · intro ha hb hab hrel
    unfold addLink
    rw [if_neg (by simp [Option.isNone_iff_eq_none, ha, hb]),
      if_neg (by simp [hab]),
      if_neg (by intro hc; exact hrel (by
        rw [List.contains_iff_exists_mem_beq] at hc
        obtain ⟨x, hx, hbeq⟩ := hc
        rwa [show rel = x from by simpa using hbeq]))]

/-- The second fixture row. -/
def memB : Mem :=
  { id := 1, content := "gamma delta", category := "general", session_id := none,
    project_id := none, source := none, time_created := 2, time_updated := 2,
    access_count := 0, time_last_accessed := none }

def fixAB : Store := storeOfMems [memA, memB] 2

/-- C6, counterexample.  With two existing distinct memories and an
out-of-set relationship, `addLink` does not return false: the insert hits
the CHECK constraint and raises. -/
theorem addLink_bad_rel_raises :
    addLink fixAB 0 1 "follows" =
      (fixAB, Except.error "CHECK constraint failed: relationship") ∧
    ∀ r : Bool, addLink fixAB 0 1 "follows" ≠ (fixAB, Except.ok r) := by decide

/-- Witness for `addLink_spec`: a valid link between the two fixture rows is
upserted and found, and a link with a missing endpoint returns false. -/
theorem addLink_spec_witness :
    linkLookup (addLink fixAB 0 1 "supersedes").1 0 1 = some "supersedes" ∧
    addLink fixAB 0 7 "related" = (fixAB, Except.ok false) := by
  refine ⟨((addLink_spec fixAB 0 1 "supersedes").2.1 (by decide) (by decide)
    (by decide) (by decide)).2, ?_⟩
  exact (addLink_spec fixAB 0 7 "related").1 (Or.inr (Or.inl (by decide)))

/-! ## C10: the duplicate scan of a global insert is not project-filtered -/

/-- C10.  When `storeMemory` runs with `global=true` (or with no projectId),
the effective project id is null, and `findDuplicate` with a null project id
applies no filter at all: its candidate scan ranges over the memories of
every project.  Consequently a global insert whose content normalizes to the
content of an existing project-scoped memory is short-circuited: it returns
that project-scoped memory unchanged and creates no global row. -/
theorem global_insert_dedup_unscoped (oracle : FtsOracle) :
    (∀ s : Store, dedupScope s none = s.mems) ∧
    (∀ inp : StoreInput, inp.global = true ∨ inp.projectId = none →
      effProjectId inp = none) ∧
    (∀ (x : Mem) (c : String) (next : Nat) (now : Int), validContent c →
      normalizeText x.content = normalizeText c →
      storeMemory oracle (storeOfMems [x] next) { content := c, global := true } now =
        (storeOfMems [x] next, Except.ok x)) := by
  refine ⟨fun s => rfl, ?_, ?_⟩
  · intro inp h
    unfold effProjectId
    rcases h with h | h
    · rw [if_pos h]
    · by_cases hg : inp.global
      · rw [if_pos hg]
      · rw [if_neg hg, h]
        rfl
  · intro x c next now hc hnorm
    exact storeMemory_exact oracle (storeOfMems [x] next)
      { content := c, global := true } now rfl hc
      (findDuplicate_exact_singleton oracle x next c hnorm)

/-- A project-scoped fixture row. -/
def memP1 : Mem :=
  { id := 0, content := "Always use project-relative paths", category := "general",
    session_id := none, project_id := some "p1", source := none, time_created := 1,
    time_updated := 1, access_count := 0, time_last_accessed := none }

/-- Witness for `global_insert_dedup_unscoped`: a global insert of the same
content is answered by the `p1`-scoped memory; no global memory appears. -/
theorem global_insert_dedup_unscoped_witness :
    storeMemory (fun _ _ _ => []) (storeOfMems [memP1] 1)
        { content := "Always use project-relative paths", global := true } 9 =
      (storeOfMems [memP1] 1, Except.ok memP1) ∧
    memP1.project_id = some "p1" :=
  ⟨(global_insert_dedup_unscoped (fun _ _ _ => [])).2.2 memP1
      "Always use project-relative paths" 1 9 (by constructor <;> decide) (by decide),
   by decide⟩

/-! ## C7: deletion cascades and referential integrity -/

/-- The cascade invariant: no tag row, link row, or FTS row references a
memory id without a live memory row. -/
def NoOrphans (s : Store) : Prop :=
  (∀ p ∈ s.tags, ∃ m ∈ s.mems, m.id = p.1) ∧
  (∀ l ∈ s.links, (∃ m ∈ s.mems, m.id = l.source_id) ∧
    (∃ m ∈ s.mems, m.id = l.target_id)) ∧
  (∀ r ∈ s.fts, ∃ m ∈ s.mems, m.id = r.memory_id)

theorem noOrphans_deleteMemory {s : Store} (h : NoOrphans s) (id : Nat) :
    NoOrphans (deleteMemory s id).1 := by
  obtain ⟨ht, hl, hf⟩ := h
  refine ⟨?_, ?_, ?_⟩
  · intro p hp
    have hpf := List.of_mem_filter hp
    simp only [Bool.not_eq_true'] at hpf
    obtain ⟨m, hm, hmid⟩ := ht p (List.mem_of_mem_filter hp)
    refine ⟨m, List.mem_filter.mpr ⟨hm, ?_⟩, hmid⟩
    simp only [Bool.not_eq_true']
    rw [show (m.id == id) = (p.1 == id) from by rw [hmid], hpf]
  · intro l hl'
    have hlf := List.of_mem_filter hl'
    simp only [Bool.not_eq_true', Bool.or_eq_false_iff] at hlf
    obtain ⟨⟨ms, hms, hmsid⟩, ⟨mt, hmt, hmtid⟩⟩ := hl l (List.mem_of_mem_filter hl')
    constructor
    · refine ⟨ms, List.mem_filter.mpr ⟨hms, ?_⟩, hmsid⟩
      simp only [Bool.not_eq_true']
      rw [show (ms.id == id) = (l.source_id == id) from by rw [hmsid], hlf.1]
    · refine ⟨mt, List.mem_filter.mpr ⟨hmt, ?_⟩, hmtid⟩
      simp only [Bool.not_eq_true']
      rw [show (mt.id == id) = (l.target_id == id) from by rw [hmtid], hlf.2]
  · intro r hr
    have hrf := List.of_mem_filter hr
    simp only [Bool.not_eq_true'] at hrf
    obtain ⟨m, hm, hmid⟩ := hf r (List.mem_of_mem_filter hr)
    refine ⟨m, List.mem_filter.mpr ⟨hm, ?_⟩, hmid⟩
    simp only [Bool.not_eq_true']
    rw [show (m.id == id) = (r.memory_id == id) from by rw [hmid], hrf]

theorem noOrphans_deleteByIds {s : Store} (h : NoOrphans s) (ids : List Nat) :
    NoOrphans (deleteByIds s ids).1 := by
  obtain ⟨ht, hl, hf⟩ := h
  refine ⟨?_, ?_, ?_⟩
  · intro p hp
    have hpf := List.of_mem_filter hp
    simp only [Bool.not_eq_true'] at hpf
    obtain ⟨m, hm, hmid⟩ := ht p (List.mem_of_mem_filter hp)
    refine ⟨m, List.mem_filter.mpr ⟨hm, ?_⟩, hmid⟩
    simp only [Bool.not_eq_true']
    rw [show (ids.contains m.id) = (ids.contains p.1) from by rw [hmid], hpf]
  · intro l hl'
    have hlf := List.of_mem_filter hl'
    simp only [Bool.not_eq_true', Bool.or_eq_false_iff] at hlf
    obtain ⟨⟨ms, hms, hmsid⟩, ⟨mt, hmt, hmtid⟩⟩ := hl l (List.mem_of_mem_filter hl')
    constructor
    · refine ⟨ms, List.mem_filter.mpr ⟨hms, ?_⟩, hmsid⟩
      simp only [Bool.not_eq_true']
      rw [show (ids.contains ms.id) = (ids.contains l.source_id) from by rw [hmsid], hlf.1]
    · refine ⟨mt, List.mem_filter.mpr ⟨hmt, ?_⟩, hmtid⟩
      simp only [Bool.not_eq_true']
      rw [show (ids.contains mt.id) = (ids.contains l.target_id) from by rw [hmtid], hlf.2]
  · intro r hr
    have hrf := List.of_mem_filter hr
    simp only [Bool.not_eq_true'] at hrf
    obtain ⟨m, hm, hmid⟩ := hf r (List.mem_of_mem_filter hr)
    refine ⟨m, List.mem_filter.mpr ⟨hm, ?_⟩, hmid⟩
    simp only [Bool.not_eq_true']
    rw [show (ids.contains m.id) = (ids.contains r.memory_id) from by rw [hmid], hrf]

/-- Mapping the rows by an id-preserving function preserves the set of live
ids. -/
theorem ids_map_preserve (mems : List Mem) (g : Mem → Mem)
    (hg : ∀ m, (g m).id = m.id) (n : Nat) :
    (∃ m ∈ mems.map g, m.id = n) ↔ (∃ m ∈ mems, m.id = n) := by
  constructor
  · rintro ⟨m', hm', hn⟩
    rw [List.mem_map] at hm'
    obtain ⟨m, hm, hmeq⟩ := hm'
    exact ⟨m, hm, by rw [← hg m, hmeq, hn]⟩
  · rintro ⟨m, hm, hn⟩
    exact ⟨g m, List.mem_map.mpr ⟨m, hm, rfl⟩, (hg m).trans hn⟩

/-- Any `UPDATE memory ... WHERE id = ?` that keeps the id unchanged,
together with its `memory_au` trigger, preserves the cascade invariant. -/
theorem noOrphans_mapTrigger {s : Store} (h : NoOrphans s) (id : Nat) (g : Mem → Mem)
    (hg : ∀ m, (g m).id = m.id) :
    NoOrphans { s with mems := s.mems.map g,
                       fts := triggerAu (s.mems.map g) s.fts id } := by
  obtain ⟨ht, hl, hf⟩ := h
  refine ⟨?_, ?_, ?_⟩
  · intro p hp
    exact (ids_map_preserve s.mems g hg p.1).mpr (ht p hp)
  · intro l hl'
    obtain ⟨hs', ht'⟩ := hl l hl'
    exact ⟨(ids_map_preserve s.mems g hg l.source_id).mpr hs',
      (ids_map_preserve s.mems g hg l.target_id).mpr ht'⟩
  · intro r hr
    unfold triggerAu at hr
    simp only at hr
    rcases List.mem_append.mp hr with hr | hr
    · obtain ⟨m, hm, hmid⟩ := hf r (List.mem_of_mem_filter hr)
      exact (ids_map_preserve s.mems g hg r.memory_id).mpr ⟨m, hm, hmid⟩
    · rw [Option.mem_toList, Option.mem_def, Option.map_eq_some'] at hr
      obtain ⟨m, hm, hmr⟩ := hr
      refine ⟨m, List.mem_of_find?_eq_some hm, ?_⟩
      rw [← hmr]
      rfl

theorem noOrphans_applyUpdateRows {s : Store} (h : NoOrphans s) {id : Nat}
    {updated : Mem} (hid : updated.id = id) : NoOrphans (applyUpdateRows s id updated) := by
  have hg : ∀ m : Mem, ((if m.id == id then updated else m) : Mem).id = m.id := by
    intro m
    by_cases hcase : m.id == id
    · rw [if_pos hcase, hid]
      have : m.id = id := by simpa using hcase
      exact this.symm
    · rw [if_neg hcase]
  exact noOrphans_mapTrigger h id (fun m => if m.id == id then updated else m) hg

theorem foldl_insertTagRow_tags_sub (tags : List String) (s : Store) (id : Nat) :
    ∀ p ∈ (tags.foldl (fun st t => insertTagRow st id (normTag t)) s).tags,
      p ∈ s.tags ∨ p.1 = id := by
  induction tags generalizing s with
  | nil => intro p hp; exact Or.inl hp
  | cons t rest ih =>
    intro p hp
    simp only [List.foldl_cons] at hp
    rcases ih (insertTagRow s id (normTag t)) p hp with hin | hid
    · unfold insertTagRow at hin
      by_cases hmem : (id, normTag t) ∈ s.tags
      · rw [if_pos hmem] at hin
        exact Or.inl hin
      · rw [if_neg hmem] at hin
        simp only at hin
        rcases List.mem_append.mp hin with hin | hin
        · exact Or.inl hin
        · right
          rw [List.mem_singleton.mp hin]
    · exact Or.inr hid

theorem noOrphans_foldTags {s : Store} (h : NoOrphans s) (id : Nat) (tags : List String)
    (hid : ∃ m ∈ s.mems, m.id = id) :
    NoOrphans (tags.foldl (fun st t => insertTagRow st id (normTag t)) s) := by
  obtain ⟨hmems, hlinks, hfts, _⟩ := foldl_insertTagRow_parts tags s id
  obtain ⟨ht, hl, hf⟩ := h
  refine ⟨?_, ?_, ?_⟩
  · intro p hp
    rw [hmems]
    rcases foldl_insertTagRow_tags_sub tags s id p hp with hin | hpid
    · exact ht p hin
    · rw [hpid]
      exact hid
  · intro l hl'
    rw [hlinks] at hl'
    rw [hmems]
    exact hl l hl'
  · intro r hr
    rw [hfts] at hr
    rw [hmems]
    exact hf r hr

theorem noOrphans_insertState {s : Store} (h : NoOrphans s) (inp : StoreInput) (now : Int) :
    NoOrphans (insertState s inp now) := by
  unfold insertState
  apply noOrphans_foldTags
  · obtain ⟨ht, hl, hf⟩ := h
    refine ⟨?_, ?_, ?_⟩
    · intro p hp
      obtain ⟨m, hm, hmid⟩ := ht p hp
      exact ⟨m, List.mem_append_left _ hm, hmid⟩
    · intro l hl'
      obtain ⟨⟨ms, hms, hmsid⟩, ⟨mt, hmt, hmtid⟩⟩ := hl l hl'
      exact ⟨⟨ms, List.mem_append_left _ hms, hmsid⟩,
        ⟨mt, List.mem_append_left _ hmt, hmtid⟩⟩
    · intro r hr
      simp only at hr
      rcases List.mem_append.mp hr with hr | hr
      · obtain ⟨m, hm, hmid⟩ := hf r hr
        exact ⟨m, List.mem_append_left _ hm, hmid⟩
      · refine ⟨insertedMem s inp now,
          List.mem_append_right _ (List.mem_singleton.mpr rfl), ?_⟩
        rw [List.mem_singleton.mp hr]
        rfl
  · exact ⟨insertedMem s inp now,
      List.mem_append_right _ (List.mem_singleton.mpr rfl), rfl⟩

theorem noOrphans_updateMemory (s : Store) (id : Nat) (u : UpdateInput) (now : Int)
    (h : NoOrphans s) : NoOrphans (updateMemory s id u now).1 := by
  cases hg : getMemory s id with
  | none => rw [updateMemory_none hg]; exact h
  | some ex =>
    rw [updateMemory_some u now hg]
    split
    · exact h
    · have hexid : ex.id = id := by
        have := List.find?_some hg
        simpa using this
      exact noOrphans_applyUpdateRows h (by simp [patchedMem, hexid])

theorem noOrphans_storeMemory (oracle : FtsOracle) (s : Store) (inp : StoreInput)
    (now : Int) (h : NoOrphans s) : NoOrphans (storeMemory oracle s inp now).1 := by
  unfold storeMemory
  split
  · exact h
  split
  · exact h
  split
  · exact h
  · exact noOrphans_updateMemory _ _ _ _ h
  · exact noOrphans_insertState h inp now

theorem noOrphans_refreshMemory (s : Store) (id : Nat) (now : Int)
    (h : NoOrphans s) : NoOrphans (refreshMemory s id now).1 := by
  unfold refreshMemory
  cases hg : getMemory s id with
  | none => exact h
  | some ex =>
    exact noOrphans_mapTrigger h id
      (fun m => if m.id == id then refreshTick now m else m)
      (by intro m
          by_cases hc : m.id == id
          · simp [hc, refreshTick]
          · simp [hc])

theorem noOrphans_bumpAccess (s : Store) (ids : List Nat) (now : Int)
    (h : NoOrphans s) : NoOrphans (bumpAccess s ids now) := by
  induction ids generalizing s with
  | nil => exact h
  | cons id rest ih =>
    show NoOrphans (bumpAccess _ rest now)
    apply ih
    cases hg : getMemory s id with
    | none => simpa [hg] using h
    | some ex =>
      simp only [hg]
      exact noOrphans_mapTrigger h id
        (fun m => if m.id == id then searchTick now m else m)
        (by intro m
            by_cases hc : m.id == id
            · simp [hc, searchTick]
            · simp [hc])

theorem noOrphans_addTags (s : Store) (id : Nat) (tags : List String)
    (h : NoOrphans s) : NoOrphans (addTags s id tags).1 := by
  unfold addTags
  split
  · exact h
  split
  · rename_i hsome
    apply noOrphans_foldTags h
    cases hg : getMemory s id with
    | none => rw [hg] at hsome; simp at hsome
    | some ex =>
      refine ⟨ex, List.mem_of_find?_eq_some hg, ?_⟩
      have := List.find?_some hg
      simpa using this
  · exact h

theorem noOrphans_tagsFilter {s : Store} (h : NoOrphans s) (q : Nat × String → Bool) :
    NoOrphans { s with tags := s.tags.filter q } := by
  obtain ⟨ht, hl, hf⟩ := h
  exact ⟨fun p hp => ht p (List.mem_of_mem_filter hp), hl, hf⟩

theorem noOrphans_setTags (s : Store) (id : Nat) (tags : List String)
    (h : NoOrphans s) : NoOrphans (setTags s id tags).1 := by
  unfold setTags
  have h1 := noOrphans_tagsFilter h (fun p => !(p.1 == id))
  split
  · exact h1
  split
  · rename_i hsome
    apply noOrphans_foldTags h1
    cases hg : getMemory s id with
    | none => rw [hg] at hsome; simp at hsome
    | some ex =>
      refine ⟨ex, List.mem_of_find?_eq_some hg, ?_⟩
      have := List.find?_some hg
      simpa using this
  · exact h1

theorem noOrphans_removeTags (s : Store) (id : Nat) (tags : List String)
    (h : NoOrphans s) : NoOrphans (removeTags s id tags) := by
  unfold removeTags
  induction tags generalizing s with
  | nil => exact h
  | cons t rest ih =>
    simp only [List.foldl_cons]
    exact ih _ (noOrphans_tagsFilter h _)

theorem noOrphans_addLink (s : Store) (a b : Nat) (rel : String)
    (h : NoOrphans s) : NoOrphans (addLink s a b rel).1 := by
  unfold addLink
  split
  · exact h
  split
  · exact h
  split
  · rename_i hnotnone _ _
    obtain ⟨ht, hl, hf⟩ := h
    refine ⟨ht, ?_, hf⟩
    intro l hl'
    simp only at hl'
    rcases List.mem_append.mp hl' with hl' | hl'
    · exact hl l (List.mem_of_mem_filter hl')
    · rw [List.mem_singleton.mp hl']
      simp only [Bool.or_eq_true, Option.isNone_iff_eq_none, not_or] at hnotnone
      constructor
      · cases hga : getMemory s a with
        | none => exact absurd hga (by simpa using hnotnone.1)
        | some ma =>
          refine ⟨ma, List.mem_of_find?_eq_some hga, ?_⟩
          have := List.find?_some hga
          simpa using this
      · cases hgb : getMemory s b with
        | none => exact absurd hgb (by simpa using hnotnone.2)
        | some mb =>
          refine ⟨mb, List.mem_of_find?_eq_some hgb, ?_⟩
          have := List.find?_some hgb
          simpa using this
  · exact h

theorem noOrphans_removeLink (s : Store) (a b : Nat)
    (h : NoOrphans s) : NoOrphans (removeLink s a b).1 := by
  obtain ⟨ht, hl, hf⟩ := h
  exact ⟨ht, fun l hl' => hl l (List.mem_of_mem_filter hl'), hf⟩

theorem noOrphans_purge (s : Store) (days now : Int)
    (h : NoOrphans s) : NoOrphans (purgeOldMemories s days now).1 :=
  noOrphans_deleteByIds h _

theorem noOrphans_enforceCap (cap : Int) (s : Store)
    (h : NoOrphans s) : NoOrphans (enforceMaxMemories cap s).1 := by
  unfold enforceMaxMemories
  split
  · exact h
  split
  · exact h
  · exact noOrphans_deleteByIds h _

/-- C7.  Deleting a memory removes, in the same atomic statement (one
`DELETE` with its `ON DELETE CASCADE` foreign keys and the `memory_ad`
trigger), every tag row of the memory, every link row touching it in either
direction, its full-text index row, and the memory row itself; and the
referential-integrity invariant `NoOrphans` — no tag, link, or FTS row
references a dead memory — is preserved by every operation of the store:
insert, update, delete, refresh, the search write-back, the tag operations,
the link operations, the age purge, and cap enforcement. -/
theorem delete_cascade_invariant :
    (∀ s id,
      (∀ p ∈ (deleteMemory s id).1.tags, p.1 ≠ id) ∧
      (∀ l ∈ (deleteMemory s id).1.links, l.source_id ≠ id ∧ l.target_id ≠ id) ∧
      (∀ r ∈ (deleteMemory s id).1.fts, r.memory_id ≠ id) ∧
      (∀ m ∈ (deleteMemory s id).1.mems, m.id ≠ id)) ∧
    (∀ s id, NoOrphans s → NoOrphans (deleteMemory s id).1) ∧
    (∀ oracle s inp now, NoOrphans s → NoOrphans (storeMemory oracle s inp now).1) ∧
    (∀ s id u now, NoOrphans s → NoOrphans (updateMemory s id u now).1) ∧
    (∀ s id now, NoOrphans s → NoOrphans (refreshMemory s id now).1) ∧
    (∀ s ids now, NoOrphans s → NoOrphans (bumpAccess s ids now)) ∧
    (∀ s id tags, NoOrphans s → NoOrphans (addTags s id tags).1) ∧
    (∀ s id tags, NoOrphans s → NoOrphans (setTags s id tags).1) ∧
    (∀ s id tags, NoOrphans s → NoOrphans (removeTags s id tags)) ∧
    (∀ s a b rel, NoOrphans s → NoOrphans (addLink s a b rel).1) ∧
    (∀ s a b, NoOrphans s → NoOrphans (removeLink s a b).1) ∧
    (∀ s days now, NoOrphans s → NoOrphans (purgeOldMemories s days now).1) ∧
    (∀ cap s, NoOrphans s → NoOrphans (enforceMaxMemories cap s).1) := by
  refine ⟨?_, fun s id h => noOrphans_deleteMemory h id,
    fun oracle s inp now h => noOrphans_storeMemory oracle s inp now h,
    fun s id u now h => noOrphans_updateMemory s id u now h,
    fun s id now h => noOrphans_refreshMemory s id now h,
    fun s ids now h => noOrphans_bumpAccess s ids now h,
    fun s id tags h => noOrphans_addTags s id tags h,
    fun s id tags h => noOrphans_setTags s id tags h,
    fun s id tags h => noOrphans_removeTags s id tags h,
    fun s a b rel h => noOrphans_addLink s a b rel h,
    fun s a b h => noOrphans_removeLink s a b h,
    fun s days now h => noOrphans_purge s days now h,
    fun cap s h => noOrphans_enforceCap cap s h⟩
  intro s id
  refine ⟨?_, ?_, ?_, ?_⟩
  · intro p hp
    have := List.of_mem_filter hp
    simp only [Bool.not_eq_true'] at this
    simpa using this
  · intro l hl
    have := List.of_mem_filter hl
    simp only [Bool.not_eq_true', Bool.or_eq_false_iff] at this
    constructor
    · simpa using this.1
    · simpa using this.2
  · intro r hr
    have := List.of_mem_filter hr
    simp only [Bool.not_eq_true'] at this
    simpa using this
  · intro m hm
    have := List.of_mem_filter hm
    simp only [Bool.not_eq_true'] at this
    simpa using this

/-- Witness for `delete_cascade_invariant`: the fixture with a tag and a
link satisfies the invariant, and still does after deleting memory 0, whose
rows all vanish. -/
theorem delete_cascade_invariant_witness :
    NoOrphans (deleteMemory
      { mems := [memA, memB],
        tags := [(0, "auth"), (1, "auth")],
        links := [{ source_id := 0, target_id := 1, relationship := "related" }],
        fts := [ftsOf memA, ftsOf memB], nextId := 2 } 0).1 ∧
    (deleteMemory
      { mems := [memA, memB],
        tags := [(0, "auth"), (1, "auth")],
        links := [{ source_id := 0, target_id := 1, relationship := "related" }],
        fts := [ftsOf memA, ftsOf memB], nextId := 2 } 0).1.tags = [(1, "auth")] := by
  refine ⟨delete_cascade_invariant.2.1 _ 0 ?_, by decide⟩
  refine ⟨?_, ?_, ?_⟩ <;> decide

/-! ## C8: cap enforcement -/

/-- C8.  With unique row ids: when `maxMemories ≤ 0` or the total is within
the cap, `enforceMaxMemories` deletes nothing; when `0 < maxMemories <
total` it deletes exactly `total − cap` rows — the first rows in
`access_count ASC, time_created ASC` order — so exactly `cap` rows remain,
and every deleted row is `lexLe`-below every retained row: rows with higher
access counts are retained, and among equal access counts the rows with
larger `time_created` are retained.  `runMaintenance` performs exactly this
row-level effect. -/
theorem enforceCap_spec (maxM : Int) (s : Store)
    (hnodup : (s.mems.map (fun m => m.id)).Nodup) :
    ((maxM ≤ 0 ∨ (s.mems.length : Int) ≤ maxM) → enforceMaxMemories maxM s = (s, 0)) ∧
    (0 < maxM → maxM < (s.mems.length : Int) →
      (enforceMaxMemories maxM s).2 = s.mems.length - maxM.toNat ∧
      (enforceMaxMemories maxM s).1.mems.length = maxM.toNat ∧
      (∀ d ∈ s.mems, d ∉ (enforceMaxMemories maxM s).1.mems →
        ∀ r ∈ (enforceMaxMemories maxM s).1.mems, lexLe d r)) ∧
    runMaintenance maxM s = enforceMaxMemories maxM s := by
  refine ⟨?_, ?_, rfl⟩
  · intro h
    unfold enforceMaxMemories
    by_cases h0 : maxM ≤ 0
    · rw [if_pos h0]
    · rw [if_neg h0, if_pos (by rcases h with h | h; exact absurd h h0; exact h)]
  · intro hpos hlt
    have henf : enforceMaxMemories maxM s =
        deleteByIds s ((capVictims s (s.mems.length - maxM.toNat)).map (fun m => m.id)) := by
      unfold enforceMaxMemories
      rw [if_neg (not_le.mpr hpos), if_neg (not_le.mpr hlt)]
    have hkn : maxM.toNat < s.mems.length := by omega
    -- notation
    have hperm : (List.insertionSort lexLe s.mems).Perm s.mems :=
      List.perm_insertionSort lexLe s.mems
    have hids : ((List.insertionSort lexLe s.mems).map (fun m => m.id)).Nodup :=
      ((hperm.map (fun m => m.id)).symm).nodup hnodup
    have hlen : (List.insertionSort lexLe s.mems).length = s.mems.length :=
      hperm.length_eq
    have hnodups : (List.insertionSort lexLe s.mems).Nodup :=
      hperm.symm.nodup (List.Nodup.of_map _ hnodup)
    have hpair : List.Pairwise lexLe (List.insertionSort lexLe s.mems) :=
      List.sorted_insertionSort lexLe s.mems
    have hsplit : capVictims s (s.mems.length - maxM.toNat) ++
        (List.insertionSort lexLe s.mems).drop (s.mems.length - maxM.toNat) =
        List.insertionSort lexLe s.mems :=
      List.take_append_drop _ _
    -- membership in the victim-id list is membership among the victims
    have hvic : ∀ m ∈ List.insertionSort lexLe s.mems,
        (((capVictims s (s.mems.length - maxM.toNat)).map (fun m => m.id)).contains m.id
          ↔ m ∈ capVictims s (s.mems.length - maxM.toNat)) := by
      intro m hm
      constructor
      · intro hc
        have : m.id ∈ (capVictims s (s.mems.length - maxM.toNat)).map (fun m => m.id) := by
          rw [← List.elem_iff]
          exact hc
        rw [List.mem_map] at this
        obtain ⟨v, hv, hvid⟩ := this
        have hvs : v ∈ List.insertionSort lexLe s.mems := List.mem_of_mem_take hv
        exact List.inj_on_of_nodup_map hids hvs hm hvid ▸ hv
      · intro hmv
        rw [List.elem_iff]
        exact List.mem_map.mpr ⟨m, hmv, rfl⟩
    -- rows kept and rows deleted, up to permutation
    have hdisj : (capVictims s (s.mems.length - maxM.toNat)).Disjoint
        ((List.insertionSort lexLe s.mems).drop (s.mems.length - maxM.toNat)) := by
      apply List.disjoint_of_nodup_append
      rw [hsplit]
      exact hnodups
    have hfk : (List.insertionSort lexLe s.mems).filter
        (fun m => !(((capVictims s (s.mems.length - maxM.toNat)).map
          (fun m => m.id)).contains m.id)) =
        (List.insertionSort lexLe s.mems).drop (s.mems.length - maxM.toNat) := by
      conv_lhs => rw [← hsplit]
      rw [List.filter_append]
      have hv0 : (capVictims s (s.mems.length - maxM.toNat)).filter
          (fun m => !(((capVictims s (s.mems.length - maxM.toNat)).map
            (fun m => m.id)).contains m.id)) = [] := by
        rw [List.filter_eq_nil_iff]
        intro v hv
        have hcv := (hvic v (List.mem_of_mem_take hv)).mpr hv
        rw [hcv]
        decide
      have hv1 : ((List.insertionSort lexLe s.mems).drop
          (s.mems.length - maxM.toNat)).filter
          (fun m => !(((capVictims s (s.mems.length - maxM.toNat)).map
            (fun m => m.id)).contains m.id)) =
          (List.insertionSort lexLe s.mems).drop (s.mems.length - maxM.toNat) := by
        rw [List.filter_eq_self]
        intro r hr
        cases hx : ((capVictims s (s.mems.length - maxM.toNat)).map
            (fun m => m.id)).contains r.id with
        | true => exact absurd hr (hdisj ((hvic r (List.mem_of_mem_drop hr)).mp hx))
        | false => rfl
      rw [hv0, hv1, List.nil_append]
    have hfv : (List.insertionSort lexLe s.mems).filter
        (fun m => ((capVictims s (s.mems.length - maxM.toNat)).map
          (fun m => m.id)).contains m.id) =
        capVictims s (s.mems.length - maxM.toNat) := by
      conv_lhs => rw [← hsplit]
      rw [List.filter_append]
      have hv0 : (capVictims s (s.mems.length - maxM.toNat)).filter
          (fun m => ((capVictims s (s.mems.length - maxM.toNat)).map
            (fun m => m.id)).contains m.id) =
          capVictims s (s.mems.length - maxM.toNat) := by
        rw [List.filter_eq_self]
        intro v hv
        exact (hvic v (List.mem_of_mem_take hv)).mpr hv
      have hv1 : ((List.insertionSort lexLe s.mems).drop
          (s.mems.length - maxM.toNat)).filter
          (fun m => ((capVictims s (s.mems.length - maxM.toNat)).map
            (fun m => m.id)).contains m.id) = [] := by
        rw [List.filter_eq_nil_iff]
        intro r hr
        intro hc
        exact hdisj ((hvic r (List.mem_of_mem_drop hr)).mp hc) hr
      rw [hv0, hv1, List.append_nil]
    have hlentake : (capVictims s (s.mems.length - maxM.toNat)).length =
        s.mems.length - maxM.toNat := by
      unfold capVictims
      rw [List.length_take, hlen]
      omega
    have hlendrop : ((List.insertionSort lexLe s.mems).drop
        (s.mems.length - maxM.toNat)).length = maxM.toNat := by
      rw [List.length_drop, hlen]
      omega
    refine ⟨?_, ?_, ?_⟩
    · rw [henf]
      show (s.mems.filter _).length = _
      rw [(hperm.symm.filter _).length_eq, hfv, hlentake]
    · rw [henf]
      show (s.mems.filter _).length = _
      rw [(hperm.symm.filter _).length_eq, hfk, hlendrop]
    · intro d hd hdnot r hr
      rw [henf] at hdnot hr
      have hds : d ∈ List.insertionSort lexLe s.mems := hperm.mem_iff.mpr hd
      have hqd : ((capVictims s (s.mems.length - maxM.toNat)).map
          (fun m => m.id)).contains d.id := by
        by_contra hq
        exact hdnot (List.mem_filter.mpr ⟨hd, by simpa using hq⟩)
      have hdv := (hvic d hds).mp hqd
      have hrmem := List.mem_filter.mp hr
      have hrs : r ∈ List.insertionSort lexLe s.mems := hperm.mem_iff.mpr hrmem.1
      have hrnotv : r ∉ capVictims s (s.mems.length - maxM.toNat) := by
        intro hrv
        have := (hvic r hrs).mpr hrv
        rw [this] at hrmem
        simpa using hrmem.2
      have hrdrop : r ∈ (List.insertionSort lexLe s.mems).drop
          (s.mems.length - maxM.toNat) := by
        rw [← hsplit] at hrs
        rcases List.mem_append.mp hrs with h | h
        · exact absurd h hrnotv
        · exact h
      have hpair' := hpair
      rw [← hsplit] at hpair'
      exact (List.pairwise_append.mp hpair').2.2 d hdv r hrdrop

/-- The five-row fixture of the spec's cap-enforcement scenario. -/
def mkMemC8 (id : Nat) (tc : Int) (ac : Nat) : Mem :=
  { id := id, content := "row", category := "general", session_id := none,
    project_id := none, source := none, time_created := tc, time_updated := tc,
    access_count := ac, time_last_accessed := none }

def fixC8 : Store :=
  storeOfMems [mkMemC8 0 1 0, mkMemC8 1 2 5, mkMemC8 2 3 1,
    mkMemC8 3 4 0, mkMemC8 4 5 2] 5

/-- Witness for `enforceCap_spec`: with `maxMemories = 3` and five rows,
maintenance trims exactly two rows and three remain — the two rows with
`access_count = 0` are the ones deleted. -/
theorem enforceCap_spec_witness :
    (runMaintenance 3 fixC8).1.mems.length = 3 ∧
    (runMaintenance 3 fixC8).2 = 2 ∧
    (runMaintenance 3 fixC8).1.mems.map (fun m => m.id) = [1, 2, 4] := by
  have h := (enforceCap_spec 3 fixC8 (by decide)).2.1 (by decide) (by decide)
  exact ⟨h.2.1, h.1, by decide⟩

/-! ## C9: file freshness (`checkFileFreshness`, src/unnamed/part_001) -/

def digitVal (c : Char) : Option Nat :=
  if 48 ≤ c.toNat ∧ c.toNat ≤ 57 then some (c.toNat - 48) else none

/-- Parse a maximal digit prefix: value, number of digits, rest. -/
def parseDigits : List Char → Nat → Nat → Nat × Nat × List Char
  | [], acc, cnt => (acc, cnt, [])
  | c :: rest, acc, cnt =>
    match digitVal c with
    | some d => parseDigits rest (acc * 10 + d) (cnt + 1)
    | none => (acc, cnt, c :: rest)

/-- `parseFloat` on the decimal fragment the `mtime:` tags carry
(`[-]digits[.digits]`, longest prefix).  An unparsable tag yields `none`
where JS yields `NaN`; both make every branch of the freshness comparison
fail, so the observable result is identical. -/
def parseFloatQ (l : List Char) : Option ℚ :=
  match l with
  | c :: rest =>
    if c == '-' then (parseFloatAbs rest).map (fun q => -q) else parseFloatAbs l
  | [] => none
where
  parseFloatAbs (l : List Char) : Option ℚ :=
    match parseDigits l 0 0 with
    | (ip, icnt, rest) =>
      match rest with
      | c :: rest2 =>
        if c == '.' then
          match parseDigits rest2 0 0 with
          | (fp, fcnt, _) =>
            if icnt = 0 ∧ fcnt = 0 then none
            else some ((ip : ℚ) + (fp : ℚ) / (10 ^ fcnt))
        else if icnt = 0 then none else some (ip : ℚ)
      | [] => if icnt = 0 then none else some (ip : ℚ)

def startsWithChars : List Char → List Char → Bool
  | [], _ => true
  | _ :: _, [] => false
  | p :: ps, c :: cs => p == c && startsWithChars ps cs

/-- The `for (const t of memoryTags)` scan: the value after the marker of
the last matching tag (later tags overwrite earlier ones). -/
def tagValueAfter (pre : List Char) (tags : List String) : Option (List Char) :=
  tags.foldl
    (fun acc t => if startsWithChars pre t.data then some (t.data.drop pre.length) else acc)
    none

/-- The stored `git:` hash of a memory (`t.slice(4)`), if any tag carries one. -/
def storedGitOf (s : Store) (id : Nat) : Option String :=
  (tagValueAfter ("git:".data) (tagsForMemory s id)).map String.mk

/-- The stored `mtime:` value of a memory (`parseFloat(t.slice(6))`). -/
def storedMtimeOf (s : Store) (id : Nat) : Option ℚ :=
  (tagValueAfter ("mtime:".data) (tagsForMemory s id)).bind parseFloatQ

/-- `Math.abs(a - b) < c` on exact rationals, computed on numerators and
denominators (so that concrete instances evaluate in the kernel). -/
def ratAbsDiffLt (a b : ℚ) (c : Int) : Bool :=
  decide ((if a.num * (b.den : Int) - b.num * (a.den : Int) < 0
    then -(a.num * (b.den : Int) - b.num * (a.den : Int))
    else a.num * (b.den : Int) - b.num * (a.den : Int)) <
    c * ((a.den : Int) * (b.den : Int)))

theorem rat_mul_den (a : ℚ) : a * (a.den : ℚ) = (a.num : ℚ) := by
  have hden : ((a.den : ℚ)) ≠ 0 := by exact_mod_cast a.den_ne_zero
  have h := congrArg (fun x : ℚ => x * (a.den : ℚ)) (Rat.num_div_den a)
  simp only [div_mul_cancel₀ _ hden] at h
  exact h.symm

/-- The integer-level comparison is exactly `|a − b| < c`. -/
theorem ratAbsDiffLt_iff (a b : ℚ) (c : Int) :
    ratAbsDiffLt a b c = true ↔ |a - b| < (c : ℚ) := by
  unfold ratAbsDiffLt
  rw [decide_eq_true_iff]
  have habs : (if a.num * (b.den : Int) - b.num * (a.den : Int) < 0
      then -(a.num * (b.den : Int) - b.num * (a.den : Int))
      else a.num * (b.den : Int) - b.num * (a.den : Int)) =
      |a.num * (b.den : Int) - b.num * (a.den : Int)| := by
    split
    · rename_i hneg
      exact (abs_of_neg hneg).symm
    · rename_i hpos
      exact (abs_of_nonneg (not_lt.mp hpos)).symm
  rw [habs]
  have hdpos : (0:ℚ) < (a.den : ℚ) * (b.den : ℚ) := by positivity
  have key : (a - b) * ((a.den : ℚ) * (b.den : ℚ)) =
      ((a.num * (b.den : Int) - b.num * (a.den : Int) : Int) : ℚ) := by
    push_cast
    calc (a - b) * ((a.den : ℚ) * (b.den : ℚ))
        = a * (a.den : ℚ) * (b.den : ℚ) - b * (b.den : ℚ) * (a.den : ℚ) := by ring
      _ = (a.num : ℚ) * (b.den : ℚ) - (b.num : ℚ) * (a.den : ℚ) := by
          rw [rat_mul_den a, rat_mul_den b]
  have h1 : |a - b| < (c : ℚ) ↔
      |a - b| * ((a.den : ℚ) * (b.den : ℚ)) < (c : ℚ) * ((a.den : ℚ) * (b.den : ℚ)) :=
    (mul_lt_mul_right hdpos).symm
  have h2 : |a - b| * ((a.den : ℚ) * (b.den : ℚ)) =
      ((|a.num * (b.den : Int) - b.num * (a.den : Int)| : Int) : ℚ) := by
    rw [Int.cast_abs, ← key, abs_mul, abs_of_pos hdpos]
  have h3 : (c : ℚ) * ((a.den : ℚ) * (b.den : ℚ)) =
      ((c * ((a.den : Int) * (b.den : Int)) : Int) : ℚ) := by
    push_cast
    ring
  rw [h1, h2, h3, Int.cast_lt]

/-- The current fingerprint `getFileFingerprint` reads from the outside
world (version control and the filesystem); `gitHash` is never the empty
string (the code maps it to undefined), and `mtime` is 0 when `statSync`
failed. -/
structure Fingerprint where
  gitHash : Option String
  mtime : ℚ
deriving DecidableEq, Repr

/-- `checkFileFreshness(filePath, projectId, directory)`
(src/unnamed/part_001, lines 150–196), taking the already-resolved absolute
path and the current fingerprint as inputs. -/
def checkFileFreshness (s : Store) (absPath : String) (projectId : String)
    (current : Fingerprint) : Option (Bool × Mem) :=
  match searchByTag s ("filepath:" ++ absPath) (jsOrNull (some projectId)) 1 with
  | [] => none
  | memory :: _ =>
    if truthyOpt current.gitHash && truthyOpt (storedGitOf s memory.id) then
      some (current.gitHash == storedGitOf s memory.id, memory)
    else
      match storedMtimeOf s memory.id with
      | some sm =>
        if 0 < current.mtime then some (ratAbsDiffLt current.mtime sm 1000, memory)
        else some (false, memory)
      | none => some (false, memory)

theorem jsOrNull_some_ne {p : String} (hp : p ≠ "") : jsOrNull (some p) = some p := by
  unfold jsOrNull
  split
  · rename_i heq
    exact absurd (Option.some.inj heq) hp
  · rfl

theorem searchByTag_nil_iff (s : Store) (tag : String) (pid : Option String)
    {lim : Nat} (hlim : 0 < lim) :
    searchByTag s tag pid lim = [] ↔
      ∀ m ∈ s.mems, tagMatches s (normTag tag) pid m = false := by
  unfold searchByTag
  rw [List.take_eq_nil_iff]
  constructor
  · intro h
    rcases h with h | h
    · exact absurd h (Nat.pos_iff_ne_zero.mp hlim)
    · have hlen := congrArg List.length h
      unfold sortByCreatedDesc at hlen
      rw [(List.perm_insertionSort _ _).length_eq] at hlen
      have : s.mems.filter (tagMatches s (normTag tag) pid) = [] :=
        List.length_eq_zero.mp hlen
      rw [List.filter_eq_nil_iff] at this
      intro m hm
      by_cases hq : tagMatches s (normTag tag) pid m
      · exact absurd hq (this m hm)
      · simpa using hq
  · intro h
    right
    have : s.mems.filter (tagMatches s (normTag tag) pid) = [] := by
      rw [List.filter_eq_nil_iff]
      intro m hm hq
      rw [h m hm] at hq
      exact Bool.false_ne_true hq
    unfold sortByCreatedDesc
    rw [this]
    rfl

theorem searchByTag_head_matches {s : Store} {tag : String} {pid : Option String}
    {lim : Nat} {m : Mem} {rest : List Mem}
    (h : searchByTag s tag pid lim = m :: rest) :
    m ∈ s.mems ∧ tagMatches s (normTag tag) pid m = true := by
  have hm : m ∈ searchByTag s tag pid lim := by rw [h]; exact List.mem_cons_self _ _
  unfold searchByTag sortByCreatedDesc at hm
  have := (List.perm_insertionSort createdDesc _).mem_iff.mp (List.mem_of_mem_take hm)
  exact List.mem_filter.mp this

theorem checkFileFreshness_nil {s : Store} {absPath projectId : String}
    (current : Fingerprint)
    (hs : searchByTag s ("filepath:" ++ absPath) (jsOrNull (some projectId)) 1 = []) :
    checkFileFreshness s absPath projectId current = none := by
  unfold checkFileFreshness
  rw [hs]

theorem checkFileFreshness_cons {s : Store} {absPath projectId : String}
    (current : Fingerprint) {m : Mem} {rest : List Mem}
    (hs : searchByTag s ("filepath:" ++ absPath) (jsOrNull (some projectId)) 1 = m :: rest) :
    checkFileFreshness s absPath projectId current =
      (if truthyOpt current.gitHash && truthyOpt (storedGitOf s m.id) then
        some (current.gitHash == storedGitOf s m.id, m)
      else
        match storedMtimeOf s m.id with
        | some sm =>
          if 0 < current.mtime then some (ratAbsDiffLt current.mtime sm 1000, m)
          else some (false, m)
        | none => some (false, m)) := by
  unfold checkFileFreshness
  rw [hs]

/-- C9.  `checkFileFreshness` returns null exactly when no memory of the
project carries the (lowercased) `filepath:` tag of the path.  Otherwise it
returns the found memory (whose content is the stored content) together
with a freshness bit that is true exactly when either both the current and
the stored git hashes are present (truthy) and equal, or — the hashes not
both being present — a stored mtime is available, the current mtime is
positive, and they differ by less than 1000 ms.  In every other case,
including when neither fingerprint component is usable, the result is
stale. -/
theorem checkFreshness_spec (s : Store) (absPath : String) (projectId : String)
    (current : Fingerprint) (hp : projectId ≠ "") :
    (checkFileFreshness s absPath projectId current = none ↔
      ¬ ∃ m ∈ s.mems, (m.id, normTag ("filepath:" ++ absPath)) ∈ s.tags ∧
        m.project_id = some projectId) ∧
    (∀ fr mem, checkFileFreshness s absPath projectId current = some (fr, mem) →
      (mem ∈ s.mems ∧ (mem.id, normTag ("filepath:" ++ absPath)) ∈ s.tags ∧
        mem.project_id = some projectId) ∧
      (fr = true ↔
        ((truthyOpt current.gitHash ∧ truthyOpt (storedGitOf s mem.id)) ∧
          current.gitHash = storedGitOf s mem.id) ∨
        (¬(truthyOpt current.gitHash ∧ truthyOpt (storedGitOf s mem.id)) ∧
          ∃ sm, storedMtimeOf s mem.id = some sm ∧ 0 < current.mtime ∧
            |current.mtime - sm| < 1000))) := by
  have hpid : jsOrNull (some projectId) = some projectId := jsOrNull_some_ne hp
  have hmatch : ∀ m : Mem, tagMatches s (normTag ("filepath:" ++ absPath))
      (jsOrNull (some projectId)) m = true ↔
      ((m.id, normTag ("filepath:" ++ absPath)) ∈ s.tags ∧
        m.project_id = some projectId) := by
    intro m
    rw [hpid]
    unfold tagMatches
    rw [Bool.and_eq_true]
    constructor
    · rintro ⟨h1, h2⟩
      refine ⟨?_, by simpa using h2⟩
      rw [show s.tags.contains (m.id, normTag ("filepath:" ++ absPath)) =
        List.elem (m.id, normTag ("filepath:" ++ absPath)) s.tags from rfl,
        List.elem_iff] at h1
      exact h1
    · rintro ⟨h1, h2⟩
      refine ⟨?_, by simp [h2]⟩
      rw [show s.tags.contains (m.id, normTag ("filepath:" ++ absPath)) =
        List.elem (m.id, normTag ("filepath:" ++ absPath)) s.tags from rfl,
        List.elem_iff]
      exact h1
  constructor
  · cases hs : searchByTag s ("filepath:" ++ absPath) (jsOrNull (some projectId)) 1 with
    | nil =>
      rw [checkFileFreshness_nil current hs]
      constructor
      · intro _
        rw [searchByTag_nil_iff s _ _ (by norm_num)] at hs
        rintro ⟨m, hm, h1, h2⟩
        have := hs m hm
        rw [(hmatch m).mpr ⟨h1, h2⟩] at this
        exact Bool.true_eq_false.mp this
      · intro _
        rfl
    | cons m rest =>
      rw [checkFileFreshness_cons current hs]
      constructor
      · intro hnone
        exact absurd hnone
          (by split
              · simp
              · split <;> (try split) <;> simp)
      · intro hnex
        exfalso
        obtain ⟨hm, hq⟩ := searchByTag_head_matches hs
        exact hnex ⟨m, hm, (hmatch m).mp hq⟩
  · intro fr mem hsome
    cases hs : searchByTag s ("filepath:" ++ absPath) (jsOrNull (some projectId)) 1 with
    | nil =>
      rw [checkFileFreshness_nil current hs] at hsome
      exact absurd hsome (by simp)
    | cons m rest =>
      rw [checkFileFreshness_cons current hs] at hsome
      obtain ⟨hm, hq⟩ := searchByTag_head_matches hs
      by_cases hgit : truthyOpt current.gitHash && truthyOpt (storedGitOf s m.id)
      · rw [if_pos hgit] at hsome
        obtain ⟨hfr, hmem⟩ := Prod.mk.injEq _ _ _ _ ▸ Option.some.inj hsome
        subst hmem
        rw [Bool.and_eq_true] at hgit
        refine ⟨by
          obtain ⟨h1, h2⟩ := (hmatch m).mp hq
          exact ⟨hm, h1, h2⟩, ?_⟩
        constructor
        · intro hfrt
          left
          rw [← hfr] at hfrt
          exact ⟨⟨hgit.1, hgit.2⟩, by simpa using hfrt⟩
        · rintro (⟨_, heq⟩ | ⟨hnot, _⟩)
          · rw [← hfr]
            simpa using heq
          · exact absurd ⟨hgit.1, hgit.2⟩ hnot
      · rw [if_neg hgit] at hsome
        rw [Bool.and_eq_true] at hgit
        cases hsm : storedMtimeOf s m.id with
        | some sm =>
          rw [hsm] at hsome
          dsimp only at hsome
          by_cases hmt : 0 < current.mtime
          · rw [if_pos hmt] at hsome
            obtain ⟨hfr, hmem⟩ := Prod.mk.injEq _ _ _ _ ▸ Option.some.inj hsome
            subst hmem
            refine ⟨by
              obtain ⟨h1, h2⟩ := (hmatch m).mp hq
              exact ⟨hm, h1, h2⟩, ?_⟩
            constructor
            · intro hfrt
              right
              rw [← hfr] at hfrt
              have hq := (ratAbsDiffLt_iff current.mtime sm 1000).mp hfrt
              exact ⟨hgit, sm, hsm, hmt, by exact_mod_cast hq⟩
            · rintro (⟨hboth, _⟩ | ⟨_, sm2, hsm2, _, hlt⟩)
              · exact absurd hboth hgit
              · rw [← hfr]
                rw [hsm] at hsm2
                rw [show sm = sm2 from Option.some.inj hsm2]
                exact (ratAbsDiffLt_iff current.mtime sm2 1000).mpr (by exact_mod_cast hlt)
          · rw [if_neg hmt] at hsome
            obtain ⟨hfr, hmem⟩ := Prod.mk.injEq _ _ _ _ ▸ Option.some.inj hsome
            subst hmem
            refine ⟨by
              obtain ⟨h1, h2⟩ := (hmatch m).mp hq
              exact ⟨hm, h1, h2⟩, ?_⟩
            constructor
            · intro hfrt
              rw [← hfr] at hfrt
              exact absurd hfrt (by simp)
            · rintro (⟨hboth, _⟩ | ⟨_, sm2, _, hmt2, _⟩)
              · exact absurd hboth hgit
              · exact absurd hmt2 hmt
        | none =>
          rw [hsm] at hsome
          dsimp only at hsome
          obtain ⟨hfr, hmem⟩ := Prod.mk.injEq _ _ _ _ ▸ Option.some.inj hsome
          subst hmem
          refine ⟨by
            obtain ⟨h1, h2⟩ := (hmatch m).mp hq
            exact ⟨hm, h1, h2⟩, ?_⟩
          constructor
          · intro hfrt
            rw [← hfr] at hfrt
            exact absurd hfrt (by simp)
          · rintro (⟨hboth, _⟩ | ⟨_, sm2, hsm2, _, _⟩)
            · exact absurd hboth hgit
            · rw [hsm] at hsm2
              exact absurd hsm2 (by simp)


/-- The file-cache fixture: one memory for `/tmp/x.md` in project `p1`,
fingerprinted with no git hash and mtime 1000. -/
def memC9 : Mem :=
  { id := 0, content := "cached content of x.md", category := "discovery",
    session_id := none, project_id := some "p1", source := some "tool-read: /tmp/x.md",
    time_created := 1, time_updated := 1, access_count := 0, time_last_accessed := none }

def fixC9 : Store :=
  { mems := [memC9],
    tags := [(0, "filepath:/tmp/x.md"), (0, "git:"), (0, "mtime:1000")],
    links := [], fts := [ftsOf memC9], nextId := 1 }

/-- Witness for `checkFreshness_spec`: a current mtime within 1000 ms of
the stored one is fresh; 1500 ms away it is stale; an unknown path gives
null. -/
theorem checkFreshness_spec_witness :
    checkFileFreshness fixC9 "/tmp/x.md" "p1" ⟨none, 1500⟩ = some (true, memC9) ∧
    memC9 ∈ fixC9.mems ∧
    checkFileFreshness fixC9 "/tmp/x.md" "p1" ⟨none, 2500⟩ = some (false, memC9) ∧
    checkFileFreshness fixC9 "/tmp/other" "p1" ⟨none, 1500⟩ = none := by
  refine ⟨by decide, ?_, by decide, ?_⟩
  · exact (((checkFreshness_spec fixC9 "/tmp/x.md" "p1" ⟨none, 1500⟩ (by decide)).2
      true memC9 (by decide)).1).1
  · exact ((checkFreshness_spec fixC9 "/tmp/other" "p1" ⟨none, 1500⟩ (by decide)).1).mpr
      (by decide)

/-! ## C5: export / import (`memory_export` / `memory_import`,
src/unnamed/part_008, lines 545–656) -/

/-- The scope clause of `listMemories` (src/unnamed/part_007, lines
420–429): `project` filters to the project, `global` to null project ids,
`all` (with a truthy project id) admits the project's and the global
memories. -/
def listScopeFilter (projectId : Option String) (scope : String) (m : Mem) : Bool :=
  if truthyOpt projectId && scope == "project" then m.project_id == projectId
  else if scope == "global" then m.project_id == none
  else if truthyOpt projectId && scope == "all" then
    m.project_id == projectId || m.project_id == none
  else true

/-- `listMemories` (src/unnamed/part_007, lines 404–440): filter by
category / scope / session, newest first, limited. -/
def listMemories (s : Store) (category : Option String) (projectId : Option String)
    (sessionId : Option String) (scope : String) (limit : Nat) : List Mem :=
  (sortByCreatedDesc (s.mems.filter (fun m =>
    (match jsOrNull category with | some c => m.category == c | none => true) &&
    listScopeFilter projectId scope m &&
    (match jsOrNull sessionId with | some sid => m.session_id == some sid | none => true)))).take
    limit

/-- One element of an exported memory's `links` array: the edge flattened
to its other endpoint (`l.source_id === m.id ? l.target_id : l.source_id`,
src/unnamed/part_008, lines 567–570) — the direction of the edge is lost. -/
structure ExportLink where
  target_id : Nat
  relationship : String
deriving DecidableEq, Repr

/-- The object `memory_export` serializes for one memory
(src/unnamed/part_008, lines 559–571). -/
structure ExportEntry where
  id : Nat
  content : String
  category : String
  source : Option String
  project_id : Option String
  time_created : Int
  time_updated : Int
  access_count : Nat
  tags : List String
  links : List ExportLink
deriving DecidableEq, Repr

def flattenLink (memId : Nat) (l : Link) : ExportLink :=
  { target_id := if l.source_id == memId then l.target_id else l.source_id,
    relationship := l.relationship }

def entryOf (s : Store) (m : Mem) : ExportEntry :=
  { id := m.id, content := m.content, category := m.category, source := m.source,
    project_id := m.project_id, time_created := m.time_created,
    time_updated := m.time_updated, access_count := m.access_count,
    tags := tagsForMemory s m.id,
    links := (getLinksForMemory s m.id).map (flattenLink m.id) }

/-- `memory_export.execute` (src/unnamed/part_008, lines 545–576) with no
category filter and the default scope `all`: the `memories` array of the
export document. -/
def memoryExport (s : Store) (projectId : Option String) : List ExportEntry :=
  (listMemories s none projectId none "all" 10000).map (entryOf s)

/-- `Map.set` on the id map: overwrite an existing key in place, append a
new one. -/
def mapSet (m : List (Nat × Nat)) (k v : Nat) : List (Nat × Nat) :=
  if m.any (fun p => p.1 == k) then m.map (fun p => if p.1 == k then (k, v) else p)
  else m ++ [(k, v)]

/-- `Map.get` on the id map. -/
def mapGet (m : List (Nat × Nat)) (k : Nat) : Option Nat :=
  (m.find? (fun p => p.1 == k)).map (fun p => p.2)

/-- The `StoreInput` the import loop builds from an entry
(src/unnamed/part_008, lines 614–622): `category: entry.category ||
"general"`, `projectId: entry.project_id || undefined`, `source:
entry.source || undefined`, `global: !entry.project_id`, `force: true`. -/
def importInput (e : ExportEntry) : StoreInput :=
  { content := e.content,
    category := some ((jsOrNull (some e.category)).getD "general"),
    sessionId := none,
    projectId := jsOrNull e.project_id,
    source := jsOrNull e.source,
    tags := e.tags,
    global := !(truthyOpt e.project_id),
    force := true }

/-- The first import loop (src/unnamed/part_008, lines 605–628): a
memory whose id already exists is skipped (mapped to itself); otherwise
`storeMemory` runs with `force: true` and the fresh id is recorded; a
thrown validation error is swallowed and leaves no id-map entry. -/
def importMems (oracle : FtsOracle) (now : Int) :
    List ExportEntry → Store → List (Nat × Nat) → Store × List (Nat × Nat)
  | [], s, idMap => (s, idMap)
  | e :: rest, s, idMap =>
    if (getMemory s e.id).isSome then
      importMems oracle now rest s (mapSet idMap e.id e.id)
    else
      match storeMemory oracle s (importInput e) now with
      | (s', Except.ok m) => importMems oracle now rest s' (mapSet idMap e.id m.id)
      | (s', Except.error _) => importMems oracle now rest s' idMap

/-- The link-restoring loop (src/unnamed/part_008, lines 630–644): for
every entry and every flattened link, map both endpoints through the id
map (original ids are non-empty strings, so a present mapping is truthy)
and `addLink` them, swallowing thrown constraint errors. -/
def restoreLinks (idMap : List (Nat × Nat)) (s : Store)
    (entries : List ExportEntry) : Store :=
  entries.foldl (fun st e =>
    e.links.foldl (fun st2 l =>
      match mapGet idMap e.id, mapGet idMap l.target_id with
      | some a, some b => (addLink st2 a b l.relationship).1
      | _, _ => st2) st) s

/-- `memory_import.execute` (src/unnamed/part_008, lines 588–656) on an
already-parsed document: run the memory loop, then the link loop. -/
def memoryImport (oracle : FtsOracle) (s : Store) (entries : List ExportEntry)
    (now : Int) : Store :=
  restoreLinks (importMems oracle now entries s []).2
    (importMems oracle now entries s []).1 entries

/-- An FTS oracle returning no rows (irrelevant to forced inserts, which
skip the duplicate scan). -/
def nullOracle : FtsOracle := fun _ _ _ => []

/-! ### The state reached by the memory loop -/

/-- The row a forced import of entry `e` inserts when the fresh id counter
stands at `n`. -/
def memOfEntry (n : Nat) (e : ExportEntry) (now : Int) : Mem :=
  { id := n,
    content := e.content,
    category := (jsOrNull (importInput e).category).getD "general",
    session_id := none,
    project_id := effProjectId (importInput e),
    source := jsOrNull (importInput e).source,
    time_created := now,
    time_updated := now,
    access_count := 0,
    time_last_accessed := none }

def memsFrom (now : Int) : Nat → List ExportEntry → List Mem
  | _, [] => []
  | n, e :: rest => memOfEntry n e now :: memsFrom now (n + 1) rest

def tagsFrom : Nat → List ExportEntry → List (Nat × String)
  | _, [] => []
  | n, e :: rest => e.tags.map (fun t => (n, t)) ++ tagsFrom (n + 1) rest

def idMapFrom : Nat → List ExportEntry → List (Nat × Nat)
  | _, [] => []
  | n, e :: rest => (e.id, n) :: idMapFrom (n + 1) rest

/-- The memory loop stripped of its skip and error branches. -/
def insertAll (now : Int) : Store → List ExportEntry → Store
  | s, [] => s
  | s, e :: rest => insertAll now (insertState s (importInput e) now) rest

theorem insertedMem_importInput (s : Store) (e : ExportEntry) (now : Int) :
    insertedMem s (importInput e) now = memOfEntry s.nextId e now := rfl

theorem insertTagRow_mems (s : Store) (id : Nat) (t : String) :
    (insertTagRow s id t).mems = s.mems := by
  unfold insertTagRow; split <;> rfl

theorem insertTagRow_links (s : Store) (id : Nat) (t : String) :
    (insertTagRow s id t).links = s.links := by
  unfold insertTagRow; split <;> rfl

theorem insertTagRow_nextId (s : Store) (id : Nat) (t : String) :
    (insertTagRow s id t).nextId = s.nextId := by
  unfold insertTagRow; split <;> rfl

theorem tagsFold_mems (id : Nat) :
    ∀ (tags : List String) (s : Store),
    (tags.foldl (fun st t => insertTagRow st id (normTag t)) s).mems = s.mems
  | [], _ => rfl
  | t :: rest, s => by
    rw [List.foldl_cons, tagsFold_mems id rest, insertTagRow_mems]

theorem tagsFold_links (id : Nat) :
    ∀ (tags : List String) (s : Store),
    (tags.foldl (fun st t => insertTagRow st id (normTag t)) s).links = s.links
  | [], _ => rfl
  | t :: rest, s => by
    rw [List.foldl_cons, tagsFold_links id rest, insertTagRow_links]

theorem tagsFold_nextId (id : Nat) :
    ∀ (tags : List String) (s : Store),
    (tags.foldl (fun st t => insertTagRow st id (normTag t)) s).nextId = s.nextId
  | [], _ => rfl
  | t :: rest, s => by
    rw [List.foldl_cons, tagsFold_nextId id rest, insertTagRow_nextId]

theorem tagsFold_tags_sub (id : Nat) :
    ∀ (tags : List String) (s : Store),
    ∀ p ∈ (tags.foldl (fun st t => insertTagRow st id (normTag t)) s).tags,
      p ∈ s.tags ∨ p.1 = id
  | [], _, p, hp => Or.inl hp
  | t :: rest, s, p, hp => by
    rw [List.foldl_cons] at hp
    rcases tagsFold_tags_sub id rest _ p hp with h | h
    · unfold insertTagRow at h
      split at h
      · exact Or.inl h
      · rcases List.mem_append.mp h with h2 | h2
        · exact Or.inl h2
        · right
          rw [List.mem_singleton.mp h2]
    · exact Or.inr h

/-- `INSERT OR IGNORE` of pairwise distinct, normalized, fresh tags
appends them in order. -/
theorem tagsFold_append (id : Nat) :
    ∀ (tags : List String) (s : Store),
    (∀ t ∈ tags, normTag t = t) → tags.Nodup →
    (∀ t ∈ tags, (id, t) ∉ s.tags) →
    (tags.foldl (fun st t => insertTagRow st id (normTag t)) s).tags =
      s.tags ++ tags.map (fun t => (id, t))
  | [], s, _, _, _ => by simp
  | t :: rest, s, hfix, hnd, hfresh => by
    rw [List.foldl_cons]
    have hft : normTag t = t := hfix t (List.mem_cons_self t rest)
    have hnotmem : (id, t) ∉ s.tags := hfresh t (List.mem_cons_self t rest)
    have hrow : insertTagRow s id (normTag t) =
        { s with tags := s.tags ++ [(id, t)] } := by
      rw [hft]
      unfold insertTagRow
      rw [if_neg hnotmem]
    rw [hrow, tagsFold_append id rest _
      (fun u hu => hfix u (List.mem_cons_of_mem t hu))
      (List.nodup_cons.mp hnd).2
      (fun u hu => by
        intro hmem
        rcases List.mem_append.mp hmem with h | h
        · exact hfresh u (List.mem_cons_of_mem t hu) h
        · have : u = t := by
            have := List.mem_singleton.mp h
            exact (Prod.mk.injEq _ _ _ _ ▸ this).2
          exact (List.nodup_cons.mp hnd).1 (this ▸ hu))]
    simp

theorem insertState_mems (s : Store) (inp : StoreInput) (now : Int) :
    (insertState s inp now).mems = s.mems ++ [insertedMem s inp now] := by
  unfold insertState
  rw [tagsFold_mems]

theorem insertState_links (s : Store) (inp : StoreInput) (now : Int) :
    (insertState s inp now).links = s.links := by
  unfold insertState
  rw [tagsFold_links]

theorem insertState_nextId (s : Store) (inp : StoreInput) (now : Int) :
    (insertState s inp now).nextId = s.nextId + 1 := by
  unfold insertState
  rw [tagsFold_nextId]

theorem insertState_tags (s : Store) (inp : StoreInput) (now : Int)
    (hfix : ∀ t ∈ inp.tags, normTag t = t) (hnd : inp.tags.Nodup)
    (hfresh : ∀ t ∈ inp.tags, (s.nextId, t) ∉ s.tags) :
    (insertState s inp now).tags = s.tags ++ inp.tags.map (fun t => (s.nextId, t)) := by
  unfold insertState
  exact tagsFold_append s.nextId inp.tags _ hfix hnd hfresh

/-- Running the forced-insert loop from a store whose tag rows all point
below the id counter: the rows of the entries are appended in order with
consecutive fresh ids, their tag rows attach to those ids, links are
untouched, and the counter advances by the number of entries. -/
theorem insertAll_closed (now : Int) :
    ∀ (entries : List ExportEntry) (s : Store),
    (∀ p ∈ s.tags, p.1 < s.nextId) →
    (∀ e ∈ entries, (∀ t ∈ e.tags, normTag t = t) ∧ e.tags.Nodup) →
    (insertAll now s entries).mems = s.mems ++ memsFrom now s.nextId entries ∧
    (insertAll now s entries).tags = s.tags ++ tagsFrom s.nextId entries ∧
    (insertAll now s entries).links = s.links ∧
    (insertAll now s entries).nextId = s.nextId + entries.length
  | [], s, _, _ => by
    unfold insertAll
    simp [memsFrom, tagsFrom]
  | e :: rest, s, hkeys, htags => by
    have hstep : insertAll now s (e :: rest) =
        insertAll now (insertState s (importInput e) now) rest := rfl
    have hte := htags e (List.mem_cons_self e rest)
    have htagsS : (insertState s (importInput e) now).tags =
        s.tags ++ e.tags.map (fun t => (s.nextId, t)) :=
      insertState_tags s (importInput e) now hte.1 hte.2
        (fun t _ hmem => absurd (hkeys _ hmem) (by omega))
    have hkeys' : ∀ p ∈ (insertState s (importInput e) now).tags,
        p.1 < (insertState s (importInput e) now).nextId := by
      intro p hp
      rw [htagsS] at hp
      rw [insertState_nextId]
      rcases List.mem_append.mp hp with h | h
      · exact lt_trans (hkeys p h) (by omega)
      · rcases List.mem_map.mp h with ⟨t, _, ht⟩
        rw [← ht]
        omega
    obtain ⟨ihm, iht, ihl, ihn⟩ := insertAll_closed now rest
      (insertState s (importInput e) now) hkeys'
      (fun e' he' => htags e' (List.mem_cons_of_mem e he'))
    rw [hstep]
    refine ⟨?_, ?_, ?_, ?_⟩
    · rw [ihm, insertState_mems, insertState_nextId,
        insertedMem_importInput]
      show s.mems ++ [memOfEntry s.nextId e now] ++
        memsFrom now (s.nextId + 1) rest = _
      rw [List.append_assoc]
      rfl
    · rw [iht, htagsS, insertState_nextId, List.append_assoc]
      rfl
    · rw [ihl, insertState_links]
    · rw [ihn, insertState_nextId]
      simp [List.length_cons]
      omega

theorem mapSet_append {m : List (Nat × Nat)} {k v : Nat}
    (h : ∀ p ∈ m, p.1 ≠ k) : mapSet m k v = m ++ [(k, v)] := by
  unfold mapSet
  rw [if_neg]
  intro hany
  rcases List.any_eq_true.mp hany with ⟨p, hp, hpk⟩
  exact h p hp (by simpa using hpk)

theorem getMemory_eq_none {s : Store} {id : Nat}
    (h : ∀ m ∈ s.mems, m.id ≠ id) : getMemory s id = none := by
  unfold getMemory
  rw [List.find?_eq_none]
  intro m hm
  simpa using h m hm

/-- With `force: true` and valid content, `storeMemory` skips the
duplicate scan and inserts. -/
theorem storeMemory_forced (oracle : FtsOracle) (s : Store) (inp : StoreInput)
    (now : Int) (hf : inp.force = true)
    (h1 : trimChars inp.content.data ≠ [])
    (h2 : inp.content.length ≤ 10000) :
    storeMemory oracle s inp now =
      (insertState s inp now, Except.ok (insertedMem s inp now)) := by
  unfold storeMemory
  rw [if_neg (by simpa using h1), if_neg (by omega), hf]
  rfl

/-- The first import loop, run on entries whose ids all clear the fresh-id
range and whose contents pass validation, from a store whose rows and tag
rows all point below the id counter and an id map disjoint from the entry
ids: it reduces to the plain forced-insert loop, and the id map receives
the entry ids mapped to consecutive fresh ids. -/
theorem importMems_closed (oracle : FtsOracle) (now : Int) :
    ∀ (entries : List ExportEntry) (s : Store) (idMap : List (Nat × Nat)),
    (∀ m ∈ s.mems, m.id < s.nextId) →
    (∀ p ∈ s.tags, p.1 < s.nextId) →
    (∀ e ∈ entries, s.nextId + entries.length ≤ e.id) →
    (∀ e ∈ entries, trimChars e.content.data ≠ [] ∧ e.content.length ≤ 10000) →
    (∀ e ∈ entries, (∀ t ∈ e.tags, normTag t = t) ∧ e.tags.Nodup) →
    (entries.map ExportEntry.id).Nodup →
    (∀ p ∈ idMap, ∀ e ∈ entries, p.1 ≠ e.id) →
    importMems oracle now entries s idMap =
      (insertAll now s entries, idMap ++ idMapFrom s.nextId entries)
  | [], s, idMap, _, _, _, _, _, _, _ => by
    unfold importMems
    simp [insertAll, idMapFrom]
  | e :: rest, s, idMap, hmems, hkeys, hclear, hvalid, htags, hnd, hmap => by
    have hskip : getMemory s e.id = none := by
      apply getMemory_eq_none
      intro m hm
      have h1 := hmems m hm
      have h2 := hclear e (List.mem_cons_self e rest)
      simp only [List.length_cons] at h2
      omega
    have hval := hvalid e (List.mem_cons_self e rest)
    have hstore := storeMemory_forced oracle s (importInput e) now rfl hval.1 hval.2
    have hset : mapSet idMap e.id (insertedMem s (importInput e) now).id =
        idMap ++ [(e.id, s.nextId)] := by
      rw [insertedMem_importInput]
      exact mapSet_append (fun p hp => hmap p hp e (List.mem_cons_self e rest))
    have hstep : importMems oracle now (e :: rest) s idMap =
        importMems oracle now rest (insertState s (importInput e) now)
          (idMap ++ [(e.id, s.nextId)]) := by
      show (if (getMemory s e.id).isSome then _ else _) = _
      rw [hskip]
      show (match storeMemory oracle s (importInput e) now with
        | (s', Except.ok m) => importMems oracle now rest s'
            (mapSet idMap e.id m.id)
        | (s', Except.error _) => importMems oracle now rest s' idMap) = _
      rw [hstore]
      show importMems oracle now rest _ (mapSet idMap e.id _) = _
      rw [hset]
    rw [hstep]
    have hte := htags e (List.mem_cons_self e rest)
    have hmems' : ∀ m ∈ (insertState s (importInput e) now).mems,
        m.id < (insertState s (importInput e) now).nextId := by
      intro m hm
      rw [insertState_mems] at hm
      rw [insertState_nextId]
      rcases List.mem_append.mp hm with h | h
      · exact lt_trans (hmems m h) (by omega)
      · rw [List.mem_singleton.mp h, insertedMem_importInput]
        show s.nextId < s.nextId + 1
        omega
    have hkeys' : ∀ p ∈ (insertState s (importInput e) now).tags,
        p.1 < (insertState s (importInput e) now).nextId := by
      intro p hp
      rw [insertState_tags s (importInput e) now hte.1 hte.2
        (fun t _ hmem => absurd (hkeys _ hmem) (by omega))] at hp
      rw [insertState_nextId]
      rcases List.mem_append.mp hp with h | h
      · exact lt_trans (hkeys p h) (by omega)
      · rcases List.mem_map.mp h with ⟨t, _, ht⟩
        rw [← ht]
        omega
    have hclear' : ∀ e' ∈ rest,
        (insertState s (importInput e) now).nextId + rest.length ≤ e'.id := by
      intro e' he'
      rw [insertState_nextId]
      have := hclear e' (List.mem_cons_of_mem e he')
      simp only [List.length_cons] at this
      omega
    have hnd2 := List.nodup_cons.mp
      (show (ExportEntry.id e :: rest.map ExportEntry.id).Nodup from by
        rw [← List.map_cons]; exact hnd)
    have hmap' : ∀ p ∈ idMap ++ [(e.id, s.nextId)], ∀ e' ∈ rest, p.1 ≠ e'.id := by
      intro p hp e' he'
      rcases List.mem_append.mp hp with h | h
      · exact hmap p h e' (List.mem_cons_of_mem e he')
      · rw [List.mem_singleton.mp h]
        intro heq
        apply hnd2.1
        have : e.id = e'.id := heq
        rw [this]
        exact List.mem_map_of_mem ExportEntry.id he'
    rw [importMems_closed oracle now rest (insertState s (importInput e) now)
      (idMap ++ [(e.id, s.nextId)]) hmems' hkeys' hclear'
      (fun e' he' => hvalid e' (List.mem_cons_of_mem e he'))
      (fun e' he' => htags e' (List.mem_cons_of_mem e he'))
      hnd2.2 hmap']
    rw [insertState_nextId, List.append_assoc]
    rfl

/-! ### The link loop as a flat list of `addLink` calls -/

def applyCalls : Store → List (Nat × Nat × String) → Store
  | s, [] => s
  | s, (a, b, r) :: rest => applyCalls (addLink s a b r).1 rest

/-- The `addLink` calls the link loop issues, in order: one per entry and
resolvable flattened link. -/
def callsOf (idMap : List (Nat × Nat)) : List ExportEntry → List (Nat × Nat × String)
  | [] => []
  | e :: rest =>
    e.links.filterMap (fun l =>
      match mapGet idMap e.id, mapGet idMap l.target_id with
      | some a, some b => some (a, b, l.relationship)
      | _, _ => none) ++ callsOf idMap rest

theorem addLink_fst_mems (s : Store) (a b : Nat) (r : String) :
    ((addLink s a b r).1).mems = s.mems := by
  unfold addLink
  split
  · rfl
  split
  · rfl
  split <;> rfl

theorem addLink_fst_tags (s : Store) (a b : Nat) (r : String) :
    ((addLink s a b r).1).tags = s.tags := by
  unfold addLink
  split
  · rfl
  split
  · rfl
  split <;> rfl

theorem applyCalls_mems :
    ∀ (calls : List (Nat × Nat × String)) (s : Store),
    (applyCalls s calls).mems = s.mems
  | [], _ => rfl
  | (a, b, r) :: rest, s => by
    show (applyCalls (addLink s a b r).1 rest).mems = s.mems
    rw [applyCalls_mems rest, addLink_fst_mems]

theorem applyCalls_tags :
    ∀ (calls : List (Nat × Nat × String)) (s : Store),
    (applyCalls s calls).tags = s.tags
  | [], _ => rfl
  | (a, b, r) :: rest, s => by
    show (applyCalls (addLink s a b r).1 rest).tags = s.tags
    rw [applyCalls_tags rest, addLink_fst_tags]

theorem applyCalls_append :
    ∀ (xs ys : List (Nat × Nat × String)) (s : Store),
    applyCalls s (xs ++ ys) = applyCalls (applyCalls s xs) ys
  | [], _, _ => rfl
  | (a, b, r) :: rest, ys, s => by
    show applyCalls (addLink s a b r).1 (rest ++ ys) = _
    rw [applyCalls_append rest ys]
    rfl

theorem linkFold_eq_applyCalls (idMap : List (Nat × Nat)) (eid : Nat)
    (links : List ExportLink) (s : Store) :
    links.foldl (fun st2 l =>
      match mapGet idMap eid, mapGet idMap l.target_id with
      | some a, some b => (addLink st2 a b l.relationship).1
      | _, _ => st2) s =
    applyCalls s (links.filterMap (fun l =>
      match mapGet idMap eid, mapGet idMap l.target_id with
      | some a, some b => some (a, b, l.relationship)
      | _, _ => none)) := by
  cases h1 : mapGet idMap eid with
  | none =>
    induction links generalizing s with
    | nil => rfl
    | cons l rest ih =>
      rw [List.foldl_cons, List.filterMap_cons]
      exact ih _
  | some a =>
    induction links generalizing s with
    | nil => rfl
    | cons l rest ih =>
      rw [List.foldl_cons, List.filterMap_cons]
      cases h2 : mapGet idMap l.target_id with
      | none => exact ih _
      | some b => exact ih _

/-- The nested link loop equals the flat call list applied in order. -/
theorem restoreLinks_eq (idMap : List (Nat × Nat)) :
    ∀ (entries : List ExportEntry) (s : Store),
    restoreLinks idMap s entries = applyCalls s (callsOf idMap entries)
  | [], _ => rfl
  | e :: rest, s => by
    have hstep : restoreLinks idMap s (e :: rest) =
        restoreLinks idMap (e.links.foldl (fun st2 l =>
          match mapGet idMap e.id, mapGet idMap l.target_id with
          | some a, some b => (addLink st2 a b l.relationship).1
          | _, _ => st2) s) rest := rfl
    rw [hstep, restoreLinks_eq idMap rest,
      linkFold_eq_applyCalls idMap e.id e.links s, ← applyCalls_append]
    rfl

/-! ### Persistence of edges through the upsert sequence -/

theorem getMemory_isSome_of {s : Store} {id : Nat}
    (h : ∃ m ∈ s.mems, m.id = id) : (getMemory s id).isSome := by
  unfold getMemory
  rw [List.find?_isSome]
  obtain ⟨m, hm, hid⟩ := h
  exact ⟨m, hm, by simpa using hid⟩

/-- An edge survives an `addLink` call that — if it targets the edge's
ordered pair at all — re-inserts the same relationship. -/
theorem addLink_link_mem {s : Store} {a b : Nat} {r : String} {E : Link}
    (hE : E ∈ s.links)
    (hsame : a = E.source_id → b = E.target_id → r = E.relationship) :
    E ∈ ((addLink s a b r).1).links := by
  unfold addLink
  split
  · exact hE
  split
  · exact hE
  split
  · show E ∈ s.links.filter _ ++ [_]
    by_cases hab : a = E.source_id ∧ b = E.target_id
    · have hr := hsame hab.1 hab.2
      apply List.mem_append_right
      rw [hab.1, hab.2, hr]
      exact List.mem_singleton.mpr rfl
    · apply List.mem_append_left
      apply List.mem_filter.mpr
      refine ⟨hE, ?_⟩
      simp only [Bool.not_eq_eq_eq_not, Bool.not_true, Bool.and_eq_false_iff]
      rcases not_and_or.mp hab with h | h
      · left
        simpa using fun he => h he.symm
      · right
        simpa using fun he => h he.symm
  · exact hE

theorem applyCalls_preserves :
    ∀ (calls : List (Nat × Nat × String)) (s : Store) (E : Link),
    E ∈ s.links →
    (∀ c ∈ calls, c.1 = E.source_id → c.2.1 = E.target_id →
      c.2.2 = E.relationship) →
    E ∈ (applyCalls s calls).links
  | [], _, _, hE, _ => hE
  | (a, b, r) :: rest, s, E, hE, hsame => by
    show E ∈ (applyCalls (addLink s a b r).1 rest).links
    exact applyCalls_preserves rest _ E
      (addLink_link_mem hE (hsame (a, b, r) (List.mem_cons_self _ _)))
      (fun c hc => hsame c (List.mem_cons_of_mem _ hc))

/-- A call on a present, distinct pair with an allowed relationship
upserts the edge. -/
theorem addLink_ok {s : Store} {a b : Nat} {r : String}
    (ha : ∃ m ∈ s.mems, m.id = a) (hb : ∃ m ∈ s.mems, m.id = b)
    (hab : a ≠ b) (hr : r ∈ allowedRels) :
    ((addLink s a b r).1).links =
      s.links.filter (fun l => !(l.source_id == a && l.target_id == b)) ++
        [⟨a, b, r⟩] := by
  unfold addLink
  rw [if_neg (by
      simp only [Bool.or_eq_true, Option.isNone_iff_eq_none]
      push_neg
      constructor
      · intro h
        have := getMemory_isSome_of ha
        rw [h] at this
        exact absurd this (by simp)
      · intro h
        have := getMemory_isSome_of hb
        rw [h] at this
        exact absurd this (by simp)),
    if_neg (by simpa using hab),
    if_pos (by simpa using hr)]

theorem applyCalls_inserts :
    ∀ (calls : List (Nat × Nat × String)) (s : Store) (E : Link),
    (E.source_id, E.target_id, E.relationship) ∈ calls →
    (∀ c ∈ calls, c.1 = E.source_id → c.2.1 = E.target_id →
      c.2.2 = E.relationship) →
    (∃ m ∈ s.mems, m.id = E.source_id) → (∃ m ∈ s.mems, m.id = E.target_id) →
    E.source_id ≠ E.target_id → E.relationship ∈ allowedRels →
    E ∈ (applyCalls s calls).links
  | [], _, _, hpend, _, _, _, _, _ => absurd hpend (List.not_mem_nil _)
  | (a, b, r) :: rest, s, E, hpend, hsame, ha, hb, hne, hrel => by
    show E ∈ (applyCalls (addLink s a b r).1 rest).links
    by_cases hhead : (a, b, r) = (E.source_id, E.target_id, E.relationship)
    · have hmem : E ∈ ((addLink s a b r).1).links := by
        have h1 : a = E.source_id := congrArg Prod.fst hhead
        have h2 : b = E.target_id := congrArg (fun p => p.2.1) hhead
        have h3 : r = E.relationship := congrArg (fun p => p.2.2) hhead
        rw [h1, h2, h3, addLink_ok ha hb hne hrel]
        exact List.mem_append_right _ (List.mem_singleton.mpr rfl)
      exact applyCalls_preserves rest _ E hmem
        (fun c hc => hsame c (List.mem_cons_of_mem _ hc))
    · have hpend' : (E.source_id, E.target_id, E.relationship) ∈ rest := by
        rcases List.mem_cons.mp hpend with h | h
        · exact absurd h.symm hhead
        · exact h
      refine applyCalls_inserts rest _ E hpend'
        (fun c hc => hsame c (List.mem_cons_of_mem _ hc)) ?_ ?_ hne hrel
      · rw [addLink_fst_mems]
        exact ha
      · rw [addLink_fst_mems]
        exact hb

/-! ### Resolving original ids through the id map -/

theorem mapGet_idMapFrom_some :
    ∀ (entries : List ExportEntry) (n oid v : Nat),
    mapGet (idMapFrom n entries) oid = some v →
    ∃ k, ∃ hk : k < entries.length,
      v = n + k ∧ (entries.get ⟨k, hk⟩).id = oid
  | [], n, oid, v, h => by
    exact absurd h (by simp [mapGet, idMapFrom])
  | e :: rest, n, oid, v, h => by
    unfold idMapFrom mapGet at h
    by_cases heq : e.id = oid
    · rw [List.find?_cons_of_pos _ (by simpa using heq)] at h
      refine ⟨0, by simp, by simpa using h.symm, heq⟩
    · rw [List.find?_cons_of_neg _ (by simpa using heq)] at h
      obtain ⟨k, hk, hv, hid⟩ := mapGet_idMapFrom_some rest (n + 1) oid v h
      exact ⟨k + 1, by simpa using hk, by omega, hid⟩

theorem mapGet_idMapFrom_of_get :
    ∀ (entries : List ExportEntry) (n k : Nat) (hk : k < entries.length),
    (entries.map ExportEntry.id).Nodup →
    mapGet (idMapFrom n entries) (entries.get ⟨k, hk⟩).id = some (n + k)
  | [], _, k, hk, _ => absurd hk (by simp)
  | e :: rest, n, 0, hk, _ => by
    unfold idMapFrom mapGet
    rw [List.find?_cons_of_pos _ (by simp)]
    simp
  | e :: rest, n, k + 1, hk, hnd => by
    have hnd2 := List.nodup_cons.mp
      (show (ExportEntry.id e :: rest.map ExportEntry.id).Nodup from by
        rw [← List.map_cons]; exact hnd)
    have hget : ((e :: rest).get ⟨k + 1, hk⟩) = rest.get ⟨k, by simpa using hk⟩ := rfl
    rw [hget]
    have hne : e.id ≠ (rest.get ⟨k, by simpa using hk⟩).id := by
      intro heq
      exact hnd2.1 (heq ▸ List.mem_map_of_mem ExportEntry.id (rest.get_mem _ _))
    unfold idMapFrom mapGet
    rw [List.find?_cons_of_neg _ (by simpa using hne)]
    have := mapGet_idMapFrom_of_get rest (n + 1) k (by simpa using hk) hnd2.2
    unfold mapGet at this
    rw [show n + 1 + k = n + (k + 1) by omega] at this
    exact this

/-- Two original ids resolving to the same fresh id are equal. -/
theorem mapGet_idMapFrom_inj {entries : List ExportEntry} {n o1 o2 v : Nat}
    (h1 : mapGet (idMapFrom n entries) o1 = some v)
    (h2 : mapGet (idMapFrom n entries) o2 = some v) : o1 = o2 := by
  obtain ⟨k1, hk1, hv1, hid1⟩ := mapGet_idMapFrom_some entries n o1 v h1
  obtain ⟨k2, hk2, hv2, hid2⟩ := mapGet_idMapFrom_some entries n o2 v h2
  have hk : k1 = k2 := by omega
  subst hk
  rw [← hid1, ← hid2]

theorem callsOf_mem_of_aux {idMap : List (Nat × Nat)} {e : ExportEntry}
    {l : ExportLink} {a b : Nat} (hl : l ∈ e.links)
    (ha : mapGet idMap e.id = some a) (hb : mapGet idMap l.target_id = some b) :
    (a, b, l.relationship) ∈ e.links.filterMap (fun l =>
      match mapGet idMap e.id, mapGet idMap l.target_id with
      | some a, some b => some (a, b, l.relationship)
      | _, _ => none) := by
  apply List.mem_filterMap.mpr
  refine ⟨l, hl, ?_⟩
  rw [ha, hb]

theorem callsOf_mem_of {idMap : List (Nat × Nat)} :
    ∀ (entries : List ExportEntry) {e : ExportEntry},
    e ∈ entries → ∀ {l : ExportLink}, l ∈ e.links → ∀ {a b : Nat},
    mapGet idMap e.id = some a → mapGet idMap l.target_id = some b →
    (a, b, l.relationship) ∈ callsOf idMap entries
  | [], _, he, _, _, _, _, _, _ => absurd he (List.not_mem_nil _)
  | e' :: rest, e, he, l, hl, a, b, ha, hb => by
    unfold callsOf
    rcases List.mem_cons.mp he with h | h
    · subst h
      exact List.mem_append_left _ (callsOf_mem_of_aux hl ha hb)
    · exact List.mem_append_right _ (callsOf_mem_of rest h hl ha hb)

theorem callsOf_mem {idMap : List (Nat × Nat)} :
    ∀ (entries : List ExportEntry) (c : Nat × Nat × String),
    c ∈ callsOf idMap entries →
    ∃ e ∈ entries, ∃ l ∈ e.links,
      mapGet idMap e.id = some c.1 ∧ mapGet idMap l.target_id = some c.2.1 ∧
      c.2.2 = l.relationship
  | [], _, hc => absurd hc (List.not_mem_nil _)
  | e :: rest, c, hc => by
    unfold callsOf at hc
    rcases List.mem_append.mp hc with h | h
    · obtain ⟨l, hl, hfl⟩ := List.mem_filterMap.mp h
      refine ⟨e, List.mem_cons_self _ _, l, hl, ?_⟩
      cases h1 : mapGet idMap e.id with
      | none =>
        rw [h1] at hfl
        exact absurd hfl (by simp)
      | some a =>
        cases h2 : mapGet idMap l.target_id with
        | none =>
          rw [h1, h2] at hfl
          exact absurd hfl (by simp)
        | some b =>
          rw [h1, h2] at hfl
          have hc' : (a, b, l.relationship) = c := Option.some.inj hfl
          rw [← hc']
          exact ⟨rfl, rfl, rfl⟩
    · obtain ⟨e', he', hrest⟩ := callsOf_mem rest c h
      exact ⟨e', List.mem_cons_of_mem _ he', hrest⟩

/-! ### The export list under a full-scope, well-formed store -/

theorem listScopeFilter_all {pid : String} (hpid : pid ≠ "") (m : Mem) :
    listScopeFilter (some pid) "all" m =
      (m.project_id == some pid || m.project_id == none) := by
  unfold listScopeFilter
  have ht : truthyOpt (some pid) = true := by
    unfold truthyOpt
    simpa using hpid
  rw [ht]
  rfl

/-- When every memory is in scope (the project's or global) and the store
holds at most 10000 rows, the export serializes every memory, newest
first. -/
theorem memoryExport_eq (s : Store) (pid : String) (hpid : pid ≠ "")
    (hscope : ∀ m ∈ s.mems, m.project_id = some pid ∨ m.project_id = none)
    (hcount : s.mems.length ≤ 10000) :
    memoryExport s (some pid) = (sortByCreatedDesc s.mems).map (entryOf s) := by
  unfold memoryExport listMemories
  congr 1
  have hfilter : s.mems.filter (fun m =>
      (match jsOrNull none with | some c => m.category == c | none => true) &&
      listScopeFilter (some pid) "all" m &&
      (match jsOrNull none with
       | some sid => m.session_id == some sid | none => true)) = s.mems := by
    apply List.filter_eq_self.mpr
    intro m hm
    show (match jsOrNull (none : Option String) with
        | some c => m.category == c | none => true) &&
      listScopeFilter (some pid) "all" m &&
      (match jsOrNull (none : Option String) with
        | some sid => m.session_id == some sid | none => true) = true
    rw [listScopeFilter_all hpid m]
    show true && (m.project_id == some pid || m.project_id == none) && true = true
    rcases hscope m hm with h | h <;> simp [h]
  rw [hfilter]
  apply List.take_of_length_le
  unfold sortByCreatedDesc
  rw [(List.perm_insertionSort _ _).length_eq]
  exact hcount

theorem memsFrom_get (now : Int) :
    ∀ (entries : List ExportEntry) (n k : Nat) (hk : k < entries.length),
    memOfEntry (n + k) (entries.get ⟨k, hk⟩) now ∈ memsFrom now n entries
  | [], _, k, hk => absurd hk (by simp)
  | e :: rest, n, 0, _ => by
    show memOfEntry (n + 0) e now ∈ memOfEntry n e now :: memsFrom now (n + 1) rest
    rw [show n + 0 = n from rfl]
    exact List.mem_cons_self _ _
  | e :: rest, n, k + 1, hk => by
    show memOfEntry (n + (k + 1)) ((e :: rest).get ⟨k + 1, hk⟩) now ∈
      memOfEntry n e now :: memsFrom now (n + 1) rest
    apply List.mem_cons_of_mem
    have h := memsFrom_get now rest (n + 1) k (by simpa using hk)
    rw [show n + 1 + k = n + (k + 1) by omega] at h
    exact h

theorem tagsFrom_keys :
    ∀ (entries : List ExportEntry) (n : Nat), ∀ p ∈ tagsFrom n entries, n ≤ p.1
  | [], _, p, hp => absurd hp (by simp [tagsFrom])
  | e :: rest, n, p, hp => by
    unfold tagsFrom at hp
    rcases List.mem_append.mp hp with h | h
    · rcases List.mem_map.mp h with ⟨t, _, ht⟩
      rw [← ht]
    · have := tagsFrom_keys rest (n + 1) p h
      omega

theorem tagsFrom_filter :
    ∀ (entries : List ExportEntry) (n k : Nat) (hk : k < entries.length),
    ((tagsFrom n entries).filter (fun p => p.1 == n + k)).map (fun p => p.2) =
      (entries.get ⟨k, hk⟩).tags
  | [], _, k, hk => absurd hk (by simp)
  | e :: rest, n, 0, _ => by
    show ((e.tags.map (fun t => (n, t)) ++ tagsFrom (n + 1) rest).filter
      (fun p => p.1 == n + 0)).map (fun p => p.2) = e.tags
    rw [List.filter_append]
    have h1 : (e.tags.map (fun t => (n, t))).filter (fun p => p.1 == n + 0) =
        e.tags.map (fun t => (n, t)) := by
      apply List.filter_eq_self.mpr
      intro p hp
      rcases List.mem_map.mp hp with ⟨t, _, ht⟩
      rw [← ht]
      simp
    have h2 : (tagsFrom (n + 1) rest).filter (fun p => p.1 == n + 0) = [] := by
      apply List.filter_eq_nil_iff.mpr
      intro p hp
      have := tagsFrom_keys rest (n + 1) p hp
      simp only [beq_iff_eq]
      omega
    rw [h1, h2, List.append_nil, List.map_map]
    simp
  | e :: rest, n, k + 1, hk => by
    show ((e.tags.map (fun t => (n, t)) ++ tagsFrom (n + 1) rest).filter
      (fun p => p.1 == n + (k + 1))).map (fun p => p.2) =
      ((e :: rest).get ⟨k + 1, hk⟩).tags
    rw [List.filter_append]
    have h1 : (e.tags.map (fun t => (n, t))).filter
        (fun p => p.1 == n + (k + 1)) = [] := by
      apply List.filter_eq_nil_iff.mpr
      intro p hp
      rcases List.mem_map.mp hp with ⟨t, _, ht⟩
      rw [← ht]
      simp only [beq_iff_eq]
      omega
    have h2 := tagsFrom_filter rest (n + 1) k (by simpa using hk)
    rw [show n + 1 + k = n + (k + 1) by omega] at h2
    rw [h1, List.nil_append, h2]
    rfl

theorem memOfEntry_category {n : Nat} {e : ExportEntry} {now : Int}
    (h : e.category ≠ "") : (memOfEntry n e now).category = e.category := by
  show (jsOrNull (some ((jsOrNull (some e.category)).getD "general"))).getD
    "general" = e.category
  rw [jsOrNull_some_ne h]
  show (jsOrNull (some e.category)).getD "general" = e.category
  rw [jsOrNull_some_ne h]
  rfl

theorem memOfEntry_source {n : Nat} {e : ExportEntry} {now : Int}
    (h : e.source ≠ some "") : (memOfEntry n e now).source = e.source := by
  show jsOrNull (jsOrNull e.source) = e.source
  cases hs : e.source with
  | none => rfl
  | some v =>
    have hv : v ≠ "" := by
      intro hveq
      exact h (by rw [hs, hveq])
    rw [jsOrNull_some_ne hv, jsOrNull_some_ne hv]

theorem memOfEntry_project {n : Nat} {e : ExportEntry} {now : Int}
    (h : e.project_id ≠ some "") :
    (memOfEntry n e now).project_id = e.project_id := by
  show effProjectId (importInput e) = e.project_id
  cases hs : e.project_id with
  | none =>
    show effProjectId
      { content := e.content,
        category := some ((jsOrNull (some e.category)).getD "general"),
        sessionId := none, projectId := jsOrNull e.project_id,
        source := jsOrNull e.source, tags := e.tags,
        global := !(truthyOpt e.project_id), force := true } = none
    rw [hs]
    rfl
  | some p =>
    have hp : p ≠ "" := by
      intro hpeq
      exact h (by rw [hs, hpeq])
    show effProjectId
      { content := e.content,
        category := some ((jsOrNull (some e.category)).getD "general"),
        sessionId := none, projectId := jsOrNull e.project_id,
        source := jsOrNull e.source, tags := e.tags,
        global := !(truthyOpt e.project_id), force := true } = some p
    rw [hs]
    unfold effProjectId
    have ht : truthyOpt (some p) = true := by
      unfold truthyOpt
      simpa using hp
    show (if (!(truthyOpt (some p)) : Bool) then none
      else jsOrNull (jsOrNull (some p))) = some p
    rw [ht, jsOrNull_some_ne hp, jsOrNull_some_ne hp]
    rfl

theorem tagsForMemory_nodup {s : Store} (h : s.tags.Nodup) (id : Nat) :
    (tagsForMemory s id).Nodup := by
  unfold tagsForMemory
  apply List.Nodup.map_on
  · intro p hp q hq hpq
    have hp1 := (List.mem_filter.mp hp).2
    have hq1 := (List.mem_filter.mp hq).2
    rcases p with ⟨p1, p2⟩
    rcases q with ⟨q1, q2⟩
    simp only [beq_iff_eq] at hp1 hq1
    simp only at hpq
    rw [hp1, hq1, hpq]
  · exact h.filter _

/-- The heart of the restoration argument: when each unordered pair of
memories carries at most one edge, every call the link loop issues on a
given ordered pair of fresh ids carries that unique edge's relationship
(whichever entry and flattening direction produced the call). -/
theorem callsOf_rel_unique {s : Store}
    (hone : ∀ l1 ∈ s.links, ∀ l2 ∈ s.links,
      ((l1.source_id = l2.source_id ∧ l1.target_id = l2.target_id) ∨
       (l1.source_id = l2.target_id ∧ l1.target_id = l2.source_id)) → l1 = l2)
    {x y i j : Nat} {E : Link} (hE : E ∈ s.links)
    (hxy : (E.source_id = x ∧ E.target_id = y) ∨
      (E.source_id = y ∧ E.target_id = x))
    (hx : mapGet (idMapFrom 0 ((sortByCreatedDesc s.mems).map (entryOf s))) x =
      some i)
    (hy : mapGet (idMapFrom 0 ((sortByCreatedDesc s.mems).map (entryOf s))) y =
      some j) :
    ∀ c ∈ callsOf (idMapFrom 0 ((sortByCreatedDesc s.mems).map (entryOf s)))
      ((sortByCreatedDesc s.mems).map (entryOf s)),
    c.1 = i → c.2.1 = j → c.2.2 = E.relationship := by
  intro c hc h1 h2
  obtain ⟨e, he, l, hlinks, hga, hgb, hrel⟩ :=
    callsOf_mem ((sortByCreatedDesc s.mems).map (entryOf s)) c hc
  rcases List.mem_map.mp he with ⟨m, _, hem⟩
  have heid : e.id = m.id := by
    rw [← hem]
    rfl
  have hmx : m.id = x := by
    apply mapGet_idMapFrom_inj (v := i) ?_ hx
    rw [← heid, hga, h1]
  have hlinks' : l ∈ (getLinksForMemory s m.id).map (flattenLink m.id) := by
    rw [← hem] at hlinks
    exact hlinks
  rcases List.mem_map.mp hlinks' with ⟨L2, hL2, hflat⟩
  have hL2mem : L2 ∈ s.links := (List.mem_filter.mp hL2).1
  have htouch := (List.mem_filter.mp hL2).2
  have hlty : l.target_id = y := by
    apply mapGet_idMapFrom_inj (v := j) ?_ hy
    rw [hgb, h2]
  have hlrel : l.relationship = L2.relationship := by
    rw [← hflat]
    rfl
  have hL2rel : L2.relationship = E.relationship := by
    by_cases hsrc : L2.source_id = m.id
    · have hltg : l.target_id = L2.target_id := by
        rw [← hflat]
        show (if (L2.source_id == m.id : Bool) then L2.target_id
          else L2.source_id) = L2.target_id
        rw [if_pos (by simpa using hsrc)]
      have hL2E : L2 = E := by
        apply hone L2 hL2mem E hE
        rcases hxy with ⟨hex, het⟩ | ⟨hex, het⟩
        · exact Or.inl ⟨by omega, by omega⟩
        · exact Or.inr ⟨by omega, by omega⟩
      rw [hL2E]
    · have htgt : L2.target_id = m.id := by
        have hcases : L2.source_id = m.id ∨ L2.target_id = m.id := by
          simpa using htouch
        rcases hcases with h | h
        · exact absurd h hsrc
        · exact h
      have hltg : l.target_id = L2.source_id := by
        rw [← hflat]
        show (if (L2.source_id == m.id : Bool) then L2.target_id
          else L2.source_id) = L2.source_id
        rw [if_neg (by simpa using hsrc)]
      have hL2E : L2 = E := by
        apply hone L2 hL2mem E hE
        rcases hxy with ⟨hex, het⟩ | ⟨hex, het⟩
        · exact Or.inr ⟨by omega, by omega⟩
        · exact Or.inl ⟨by omega, by omega⟩
      rw [hL2E]
  rw [hrel, hlrel, hL2rel]

theorem get_map_at {α β : Type} (f : α → β) (l : List α) (k : Nat)
    (hk : k < l.length) (hkE : k < (l.map f).length) :
    (l.map f).get ⟨k, hkE⟩ = f (l.get ⟨k, hk⟩) := by
  simp [List.get_eq_getElem]

/-- Two memories of project `p1` joined by two directed edges with
different relationships: `10000 ⟶ 10001 supersedes` and
`10001 ⟶ 10000 contradicts`. -/
def memC5a : Mem :=
  { id := 10000, content := "alpha fact", category := "discovery",
    session_id := none, project_id := some "p1", source := none,
    time_created := 2, time_updated := 2, access_count := 0, time_last_accessed := none }

def memC5b : Mem :=
  { id := 10001, content := "beta fact", category := "discovery",
    session_id := none, project_id := some "p1", source := none,
    time_created := 1, time_updated := 1, access_count := 0, time_last_accessed := none }

def fixC5 : Store :=
  { mems := [memC5a, memC5b], tags := [],
    links := [⟨10000, 10001, "supersedes"⟩, ⟨10001, 10000, "contradicts"⟩],
    fts := [ftsOf memC5a, ftsOf memC5b], nextId := 10002 }

/-- C5 counterexample.  The export flattens every edge to its other
endpoint, so each direction of the pair is re-created from both entries,
and the `INSERT OR REPLACE` upserts overwrite each other in array order:
after a round trip of `fixC5` through export and import into a fresh
store, both directed edges carry `contradicts` and the original
`supersedes` relationship of `10000 ⟶ 10001` has been destroyed — no
imported link carries it, although the id map resolved both endpoints
(10000 ↦ 0, 10001 ↦ 1). -/
theorem export_import_relationship_corruption :
    fixC5.links = [⟨10000, 10001, "supersedes"⟩, ⟨10001, 10000, "contradicts"⟩] ∧
    mapGet (importMems nullOracle 100 (memoryExport fixC5 (some "p1"))
      emptyStore []).2 10000 = some 0 ∧
    mapGet (importMems nullOracle 100 (memoryExport fixC5 (some "p1"))
      emptyStore []).2 10001 = some 1 ∧
    (memoryImport nullOracle emptyStore (memoryExport fixC5 (some "p1")) 100).links =
      [⟨0, 1, "contradicts"⟩, ⟨1, 0, "contradicts"⟩] ∧
    ∀ l ∈ (memoryImport nullOracle emptyStore (memoryExport fixC5 (some "p1")) 100).links,
      l.relationship ≠ "supersedes" := by
  refine ⟨rfl, by decide, by decide, by decide, by decide⟩

/-- C5 (amended).  Exporting a well-formed store (ids clear of the fresh
id range, non-blank valid contents, non-empty categories, no empty-string
source or project id, normalized deduplicated tag rows, links between
distinct existing memories with allowed relationships) whose memories are
all in the export scope, and importing the document into a fresh store,
reproduces every exported memory: the entry resolves through the import's
own id map to a fresh id whose row carries the same content, category,
source, project id and tag list.  For links, only a weakened form of the
claim survives (cf. the counterexample): provided each unordered pair of
memories carries at most one edge, every original link reappears between
the mapped endpoints with its original relationship — in both directions,
because the export flattens the edge's direction away. -/
theorem export_import_round_trip
    (oracle : FtsOracle) (s : Store) (pid : String) (now : Int)
    (hpid : pid ≠ "")
    (hscope : ∀ m ∈ s.mems, m.project_id = some pid ∨ m.project_id = none)
    (hcount : s.mems.length ≤ 10000)
    (hids : ∀ m ∈ s.mems, s.mems.length ≤ m.id)
    (hnd : (s.mems.map Mem.id).Nodup)
    (hcontent : ∀ m ∈ s.mems, trimChars m.content.data ≠ [] ∧
      m.content.length ≤ 10000)
    (hcat : ∀ m ∈ s.mems, m.category ≠ "")
    (hsrc : ∀ m ∈ s.mems, m.source ≠ some "")
    (hproj : ∀ m ∈ s.mems, m.project_id ≠ some "")
    (htags : ∀ p ∈ s.tags, normTag p.2 = p.2)
    (htnd : s.tags.Nodup)
    (hledge : ∀ l ∈ s.links, l.source_id ≠ l.target_id ∧
      l.relationship ∈ allowedRels ∧
      (∃ m ∈ s.mems, m.id = l.source_id) ∧ ∃ m ∈ s.mems, m.id = l.target_id)
    (hone : ∀ l1 ∈ s.links, ∀ l2 ∈ s.links,
      ((l1.source_id = l2.source_id ∧ l1.target_id = l2.target_id) ∨
       (l1.source_id = l2.target_id ∧ l1.target_id = l2.source_id)) →
      l1 = l2) :
    (∀ e ∈ memoryExport s (some pid), ∃ k,
      mapGet (idMapFrom 0 (memoryExport s (some pid))) e.id = some k ∧
      ∃ m' ∈ (memoryImport oracle emptyStore
          (memoryExport s (some pid)) now).mems,
        m'.id = k ∧ m'.content = e.content ∧ m'.category = e.category ∧
        m'.source = e.source ∧ m'.project_id = e.project_id ∧
        tagsForMemory (memoryImport oracle emptyStore
          (memoryExport s (some pid)) now) k = e.tags) ∧
    (∀ l ∈ s.links, ∃ i j,
      mapGet (idMapFrom 0 (memoryExport s (some pid))) l.source_id = some i ∧
      mapGet (idMapFrom 0 (memoryExport s (some pid))) l.target_id = some j ∧
      Link.mk i j l.relationship ∈
        (memoryImport oracle emptyStore (memoryExport s (some pid)) now).links ∧
      Link.mk j i l.relationship ∈
        (memoryImport oracle emptyStore
          (memoryExport s (some pid)) now).links) := by
  rw [memoryExport_eq s pid hpid hscope hcount]
  have hperm : (sortByCreatedDesc s.mems).Perm s.mems := List.perm_insertionSort _ _
  have hmem_of : ∀ e ∈ (sortByCreatedDesc s.mems).map (entryOf s),
      ∃ m ∈ s.mems, entryOf s m = e := by
    intro e he
    rcases List.mem_map.mp he with ⟨m, hm, hem⟩
    exact ⟨m, hperm.mem_iff.mp hm, hem⟩
  have hlenE : ((sortByCreatedDesc s.mems).map (entryOf s)).length =
      s.mems.length := by
    rw [List.length_map, hperm.length_eq]
  have hndE : (((sortByCreatedDesc s.mems).map (entryOf s)).map
      ExportEntry.id).Nodup := by
    rw [List.map_map]
    exact ((hperm.map Mem.id).nodup_iff).mpr hnd
  have htagsE : ∀ e ∈ (sortByCreatedDesc s.mems).map (entryOf s),
      (∀ t ∈ e.tags, normTag t = t) ∧ e.tags.Nodup := by
    intro e he
    obtain ⟨m, _, hem⟩ := hmem_of e he
    constructor
    · intro t ht
      rw [← hem] at ht
      have ht' : t ∈ (s.tags.filter (fun p => p.1 == m.id)).map
        (fun p => p.2) := ht
      rcases List.mem_map.mp ht' with ⟨p, hp, hpt⟩
      rw [← hpt]
      exact htags p (List.mem_filter.mp hp).1
    · rw [← hem]
      exact tagsForMemory_nodup htnd m.id
  have hvalidE : ∀ e ∈ (sortByCreatedDesc s.mems).map (entryOf s),
      trimChars e.content.data ≠ [] ∧ e.content.length ≤ 10000 := by
    intro e he
    obtain ⟨m, hm, hem⟩ := hmem_of e he
    rw [← hem]
    exact hcontent m hm
  have hclearE : ∀ e ∈ (sortByCreatedDesc s.mems).map (entryOf s),
      emptyStore.nextId +
        ((sortByCreatedDesc s.mems).map (entryOf s)).length ≤ e.id := by
    intro e he
    obtain ⟨m, hm, hem⟩ := hmem_of e he
    rw [← hem, hlenE]
    show 0 + s.mems.length ≤ m.id
    have := hids m hm
    omega
  have hclosed := importMems_closed oracle now
    ((sortByCreatedDesc s.mems).map (entryOf s)) emptyStore []
    (fun m hm => absurd hm (List.not_mem_nil m))
    (fun p hp => absurd hp (List.not_mem_nil p))
    hclearE hvalidE htagsE hndE
    (fun p hp => absurd hp (List.not_mem_nil p))
  obtain ⟨hmemsI, htagsI, hlinksI, _⟩ := insertAll_closed now
    ((sortByCreatedDesc s.mems).map (entryOf s)) emptyStore
    (fun p hp => absurd hp (List.not_mem_nil p)) htagsE
  have hmemsI' : (insertAll now emptyStore
      ((sortByCreatedDesc s.mems).map (entryOf s))).mems =
      memsFrom now 0 ((sortByCreatedDesc s.mems).map (entryOf s)) := by
    rw [hmemsI]
    rfl
  have htagsI' : (insertAll now emptyStore
      ((sortByCreatedDesc s.mems).map (entryOf s))).tags =
      tagsFrom 0 ((sortByCreatedDesc s.mems).map (entryOf s)) := by
    rw [htagsI]
    rfl
  have himp : memoryImport oracle emptyStore
      ((sortByCreatedDesc s.mems).map (entryOf s)) now =
      applyCalls (insertAll now emptyStore
        ((sortByCreatedDesc s.mems).map (entryOf s)))
        (callsOf (idMapFrom 0 ((sortByCreatedDesc s.mems).map (entryOf s)))
          ((sortByCreatedDesc s.mems).map (entryOf s))) := by
    unfold memoryImport
    rw [hclosed]
    exact restoreLinks_eq _ _ _
  constructor
  · intro e he
    rcases List.mem_map.mp he with ⟨mOrig, hmL, hem⟩
    have hmLmem : mOrig ∈ s.mems := hperm.mem_iff.mp hmL
    rcases List.mem_iff_get.mp hmL with ⟨⟨k, hkL⟩, hgetm⟩
    have hkE : k < ((sortByCreatedDesc s.mems).map (entryOf s)).length := by
      rw [List.length_map]
      exact hkL
    have hgetE : ((sortByCreatedDesc s.mems).map (entryOf s)).get ⟨k, hkE⟩ = e := by
      rw [get_map_at (entryOf s) _ k hkL hkE, hgetm, hem]
    have hmga : mapGet (idMapFrom 0
        ((sortByCreatedDesc s.mems).map (entryOf s))) e.id = some k := by
      have h0 := mapGet_idMapFrom_of_get
        ((sortByCreatedDesc s.mems).map (entryOf s)) 0 k hkE hndE
      rw [hgetE] at h0
      simpa using h0
    refine ⟨k, hmga, memOfEntry (0 + k) e now, ?_, by show 0 + k = k; omega,
      rfl, ?_, ?_, ?_, ?_⟩
    · rw [himp, applyCalls_mems, hmemsI']
      have hmm := memsFrom_get now
        ((sortByCreatedDesc s.mems).map (entryOf s)) 0 k hkE
      rw [hgetE] at hmm
      exact hmm
    · exact memOfEntry_category (by rw [← hem]; exact hcat mOrig hmLmem)
    · exact memOfEntry_source (by rw [← hem]; exact hsrc mOrig hmLmem)
    · exact memOfEntry_project (by rw [← hem]; exact hproj mOrig hmLmem)
    · unfold tagsForMemory
      rw [himp, applyCalls_tags, htagsI']
      have h2 := tagsFrom_filter
        ((sortByCreatedDesc s.mems).map (entryOf s)) 0 k hkE
      rw [hgetE] at h2
      simp only [Nat.zero_add] at h2
      exact h2
  · intro l hl
    obtain ⟨hneq, hrel, ⟨ma, hma, hmaid⟩, ⟨mb, hmb, hmbid⟩⟩ := hledge l hl
    rcases List.mem_iff_get.mp (hperm.mem_iff.mpr hma) with ⟨⟨ka, hka⟩, hgeta⟩
    rcases List.mem_iff_get.mp (hperm.mem_iff.mpr hmb) with ⟨⟨kb, hkb⟩, hgetb⟩
    have hkaE : ka < ((sortByCreatedDesc s.mems).map (entryOf s)).length := by
      rw [List.length_map]
      exact hka
    have hkbE : kb < ((sortByCreatedDesc s.mems).map (entryOf s)).length := by
      rw [List.length_map]
      exact hkb
    have hgetEa : ((sortByCreatedDesc s.mems).map (entryOf s)).get ⟨ka, hkaE⟩ =
        entryOf s ma := by
      rw [get_map_at (entryOf s) _ ka hka hkaE, hgeta]
    have hgetEb : ((sortByCreatedDesc s.mems).map (entryOf s)).get ⟨kb, hkbE⟩ =
        entryOf s mb := by
      rw [get_map_at (entryOf s) _ kb hkb hkbE, hgetb]
    have hmga : mapGet (idMapFrom 0
        ((sortByCreatedDesc s.mems).map (entryOf s))) l.source_id = some ka := by
      have h0 := mapGet_idMapFrom_of_get
        ((sortByCreatedDesc s.mems).map (entryOf s)) 0 ka hkaE hndE
      rw [hgetEa] at h0
      have h0' : mapGet (idMapFrom 0
        ((sortByCreatedDesc s.mems).map (entryOf s))) ma.id = some (0 + ka) := h0
      rw [hmaid] at h0'
      simpa using h0'
    have hmgb : mapGet (idMapFrom 0
        ((sortByCreatedDesc s.mems).map (entryOf s))) l.target_id = some kb := by
      have h0 := mapGet_idMapFrom_of_get
        ((sortByCreatedDesc s.mems).map (entryOf s)) 0 kb hkbE hndE
      rw [hgetEb] at h0
      have h0' : mapGet (idMapFrom 0
        ((sortByCreatedDesc s.mems).map (entryOf s))) mb.id = some (0 + kb) := h0
      rw [hmbid] at h0'
      simpa using h0'
    have hkakb : ka ≠ kb := by
      intro hkk
      apply hneq
      have hmgb2 : mapGet (idMapFrom 0
          ((sortByCreatedDesc s.mems).map (entryOf s))) l.target_id =
          some ka := by
        rw [hkk]
        exact hmgb
      exact mapGet_idMapFrom_inj hmga hmgb2
    have hexa : ∃ m' ∈ (insertAll now emptyStore
        ((sortByCreatedDesc s.mems).map (entryOf s))).mems, m'.id = ka := by
      rw [hmemsI']
      exact ⟨memOfEntry (0 + ka) _ now,
        memsFrom_get now _ 0 ka hkaE, by show 0 + ka = ka; omega⟩
    have hexb : ∃ m' ∈ (insertAll now emptyStore
        ((sortByCreatedDesc s.mems).map (entryOf s))).mems, m'.id = kb := by
      rw [hmemsI']
      exact ⟨memOfEntry (0 + kb) _ now,
        memsFrom_get now _ 0 kb hkbE, by show 0 + kb = kb; omega⟩
    refine ⟨ka, kb, hmga, hmgb, ?_, ?_⟩
    · rw [himp]
      apply applyCalls_inserts
      · show (ka, kb, l.relationship) ∈ _
        have hlin : l ∈ getLinksForMemory s ma.id := by
          unfold getLinksForMemory
          refine List.mem_filter.mpr ⟨hl, ?_⟩
          rw [hmaid]
          simp
        have hflmem : flattenLink ma.id l ∈ (entryOf s ma).links :=
          List.mem_map_of_mem _ hlin
        have hfl : flattenLink ma.id l = ⟨l.target_id, l.relationship⟩ := by
          unfold flattenLink
          rw [hmaid]
          simp
        have heam : entryOf s ma ∈
            (sortByCreatedDesc s.mems).map (entryOf s) := by
          rw [← hgetEa]
          exact List.get_mem _ _ _
        have hga : mapGet (idMapFrom 0
            ((sortByCreatedDesc s.mems).map (entryOf s)))
            (entryOf s ma).id = some ka := by
          show mapGet _ ma.id = some ka
          rw [hmaid]
          exact hmga
        have hgb : mapGet (idMapFrom 0
            ((sortByCreatedDesc s.mems).map (entryOf s)))
            (flattenLink ma.id l).target_id = some kb := by
          rw [hfl]
          exact hmgb
        have hcall := callsOf_mem_of _ heam hflmem hga hgb
        rw [hfl] at hcall
        exact hcall
      · exact callsOf_rel_unique (E := l) hone hl (Or.inl ⟨rfl, rfl⟩) hmga hmgb
      · exact hexa
      · exact hexb
      · exact hkakb
      · exact hrel
    · rw [himp]
      apply applyCalls_inserts
      · show (kb, ka, l.relationship) ∈ _
        have hlin : l ∈ getLinksForMemory s mb.id := by
          unfold getLinksForMemory
          refine List.mem_filter.mpr ⟨hl, ?_⟩
          rw [hmbid]
          simp
        have hflmem : flattenLink mb.id l ∈ (entryOf s mb).links :=
          List.mem_map_of_mem _ hlin
        have hfl : flattenLink mb.id l = ⟨l.source_id, l.relationship⟩ := by
          unfold flattenLink
          rw [hmbid, if_neg (by simpa using hneq)]
        have hebm : entryOf s mb ∈
            (sortByCreatedDesc s.mems).map (entryOf s) := by
          rw [← hgetEb]
          exact List.get_mem _ _ _
        have hga : mapGet (idMapFrom 0
            ((sortByCreatedDesc s.mems).map (entryOf s)))
            (entryOf s mb).id = some kb := by
          show mapGet _ mb.id = some kb
          rw [hmbid]
          exact hmgb
        have hgb : mapGet (idMapFrom 0
            ((sortByCreatedDesc s.mems).map (entryOf s)))
            (flattenLink mb.id l).target_id = some ka := by
          rw [hfl]
          exact hmga
        have hcall := callsOf_mem_of _ hebm hflmem hga hgb
        rw [hfl] at hcall
        exact hcall
      · exact callsOf_rel_unique (E := l) hone hl (Or.inr ⟨rfl, rfl⟩) hmgb hmga
      · exact hexb
      · exact hexa
      · exact fun h => hkakb h.symm
      · exact hrel

/-- A well-formed two-memory store with one tagged row each and a single
`related` link, for instantiating the round-trip theorem. -/
def memC5w1 : Mem :=
  { id := 10, content := "auth uses jwt", category := "discovery",
    session_id := none, project_id := some "p1", source := none,
    time_created := 2, time_updated := 2, access_count := 0,
    time_last_accessed := none }

def memC5w2 : Mem :=
  { id := 11, content := "tokens expire daily", category := "config",
    session_id := none, project_id := some "p1", source := some "doc.md",
    time_created := 1, time_updated := 1, access_count := 0,
    time_last_accessed := none }

def fixC5w : Store :=
  { mems := [memC5w1, memC5w2], tags := [(10, "auth"), (11, "jwt")],
    links := [⟨10, 11, "related"⟩],
    fts := [ftsOf memC5w1, ftsOf memC5w2], nextId := 12 }

/-- Witness for `export_import_round_trip` on the concrete store
`fixC5w`. -/
theorem export_import_round_trip_witness :
    (∀ m ∈ fixC5w.mems, fixC5w.mems.length ≤ m.id) ∧
    (∀ l1 ∈ fixC5w.links, ∀ l2 ∈ fixC5w.links,
      ((l1.source_id = l2.source_id ∧ l1.target_id = l2.target_id) ∨
       (l1.source_id = l2.target_id ∧ l1.target_id = l2.source_id)) →
      l1 = l2) ∧
    (∀ e ∈ memoryExport fixC5w (some "p1"), ∃ k,
      mapGet (idMapFrom 0 (memoryExport fixC5w (some "p1"))) e.id = some k ∧
      ∃ m' ∈ (memoryImport nullOracle emptyStore
          (memoryExport fixC5w (some "p1")) 50).mems,
        m'.id = k ∧ m'.content = e.content ∧ m'.category = e.category ∧
        m'.source = e.source ∧ m'.project_id = e.project_id ∧
        tagsForMemory (memoryImport nullOracle emptyStore
          (memoryExport fixC5w (some "p1")) 50) k = e.tags) ∧
    (∀ l ∈ fixC5w.links, ∃ i j,
      mapGet (idMapFrom 0 (memoryExport fixC5w (some "p1"))) l.source_id =
        some i ∧
      mapGet (idMapFrom 0 (memoryExport fixC5w (some "p1"))) l.target_id =
        some j ∧
      Link.mk i j l.relationship ∈
        (memoryImport nullOracle emptyStore
          (memoryExport fixC5w (some "p1")) 50).links ∧
      Link.mk j i l.relationship ∈
        (memoryImport nullOracle emptyStore
          (memoryExport fixC5w (some "p1")) 50).links) :=
  ⟨by decide, by decide,
    export_import_round_trip nullOracle fixC5w "p1" 50 (by decide) (by decide)
      (by decide) (by decide) (by decide) (by decide) (by decide) (by decide)
      (by decide) (by decide) (by decide) (by decide) (by decide)⟩

/-! ## C1: search re-ranking (`searchMemories`, src/unnamed/part_007,
lines 302–323)

The re-scoring arithmetic of `searchMemories`, over the reals (the
idealization of JS floating point):

    const ageDays = (now - row.time_created) / 86400
    const decayFactor = 1 / (1 + ageDays * decayRate)
    const accessBoost = 1 + Math.log2(1 + (row.access_count || 0)) * 0.1
    const finalRank = row.rank / (decayFactor * accessBoost)

and `scored.sort((a, b) => a.finalRank - b.finalRank)` sorts ascending, so
a strictly smaller `finalRank` ranks strictly better. -/

noncomputable def ageDays (now time_created : ℝ) : ℝ :=
  (now - time_created) / 86400

noncomputable def decayFactor (now time_created decayRate : ℝ) : ℝ :=
  1 / (1 + ageDays now time_created * decayRate)

noncomputable def accessBoost (access_count : ℕ) : ℝ :=
  1 + Real.logb 2 (1 + (access_count : ℝ)) * 0.1

noncomputable def finalRank (baseRank now time_created decayRate : ℝ)
    (access_count : ℕ) : ℝ :=
  baseRank / (decayFactor now time_created decayRate * accessBoost access_count)

/-- `DEFAULT_DECAY_RATE` (src/unnamed/part_007, line 257). -/
noncomputable def DEFAULT_DECAY_RATE : ℝ := 0.0077

theorem logb_two_one : Real.logb 2 1 = 0 := Real.logb_one

theorem logb_two_four : Real.logb 2 4 = 2 := by
  have hlog : Real.log 2 ≠ 0 :=
    ne_of_gt (Real.log_pos (by norm_num : (1:ℝ) < 2))
  rw [show (4:ℝ) = 2 ^ (2:ℕ) by norm_num, Real.logb, Real.log_pow]
  field_simp

theorem accessBoost_zero : accessBoost 0 = 1 := by
  unfold accessBoost
  norm_num [logb_two_one]

theorem accessBoost_three : accessBoost 3 = 6 / 5 := by
  unfold accessBoost
  norm_num [show (1:ℝ) + 3 = 4 by norm_num, logb_two_four]

/-- C1.  The re-ranking of `searchMemories` inverts both monotonicities
claimed by the spec (and by the code's own comments).  With identical base
BM25 rank −1 and the default decay rate: a just-created row with
access_count 3 scores −5/6 while the same-age row with access_count 0
scores −1, so the more-accessed row ranks strictly *worse*; and a
100-day-old row with access_count 0 scores −177/100, strictly better than
the just-created row's −1, so the newer row ranks strictly *worse*.
Dividing the negative base rank by `decayFactor · accessBoost` scales its
magnitude up for old rows (decayFactor < 1) and down for accessed rows
(accessBoost > 1) — the opposite of the documented intent. -/
theorem search_rank_monotonicity_bug :
    finalRank (-1) 8640000 8640000 DEFAULT_DECAY_RATE 0 = -1 ∧
    finalRank (-1) 8640000 8640000 DEFAULT_DECAY_RATE 3 = -(5 / 6) ∧
    finalRank (-1) 8640000 0 DEFAULT_DECAY_RATE 0 = -(177 / 100) ∧
    finalRank (-1) 8640000 8640000 DEFAULT_DECAY_RATE 3 >
      finalRank (-1) 8640000 8640000 DEFAULT_DECAY_RATE 0 ∧
    finalRank (-1) 8640000 8640000 DEFAULT_DECAY_RATE 0 >
      finalRank (-1) 8640000 0 DEFAULT_DECAY_RATE 0 := by
  have h0 : finalRank (-1) 8640000 8640000 DEFAULT_DECAY_RATE 0 = -1 := by
    unfold finalRank decayFactor ageDays DEFAULT_DECAY_RATE
    rw [accessBoost_zero]
    norm_num
  have h3 : finalRank (-1) 8640000 8640000 DEFAULT_DECAY_RATE 3 = -(5 / 6) := by
    unfold finalRank decayFactor ageDays DEFAULT_DECAY_RATE
    rw [accessBoost_three]
    norm_num
  have hold : finalRank (-1) 8640000 0 DEFAULT_DECAY_RATE 0 = -(177 / 100) := by
    unfold finalRank decayFactor ageDays DEFAULT_DECAY_RATE
    rw [accessBoost_zero]
    norm_num
  refine ⟨h0, h3, hold, ?_, ?_⟩
  · rw [h0, h3]
    norm_num
  · rw [h0, hold]
    norm_num

end Openfundus
